import Mathlib

/-!
Verification of `closest_pair.py`: a brute-force closest-pair search and a
divide-and-conquer closest-pair search over points in the plane.

Embedding conventions.  Coordinates are modelled as rationals (`Point := ℚ × ℚ`),
so every arithmetic step of the program is exact.  The program manipulates
distances `sqrt((x1-x2)^2+(y1-y2)^2)` and the sentinel `float('inf')`.  We encode
such a value by the *square* of the distance in `WithTop ℚ`: the encoding
`(a : WithTop ℚ)` stands for the real number `Real.sqrt a`, and `⊤` stands for
`float('inf')`.  All comparisons the program performs on distances are mirrored
exactly through this encoding, because `Real.sqrt` is strictly monotone on
nonnegative reals:
  * `d1 < d2`   becomes `a1 < a2`          (squares compared in `WithTop ℚ`),
  * `c < d`     (a coordinate difference against a distance) becomes `qltE c a`,
    i.e. `c < 0 ∨ c^2 < a`,
  * `d == 0`    becomes `a = 0`.
Bridge lemmas (`edist_lt_iff_sqrt_lt`, `qltE_iff_lt_sqrt`, `eq_zero_iff_sqrt_eq_zero`)
prove that the encoded comparisons coincide with the real-number comparisons the
program performs.
-/

/-- A 2D point, as in `Point = Tuple[float, float]`. -/
abbrev Point : Type := ℚ × ℚ

/-- Encoded distance: `(a : WithTop ℚ)` stands for `Real.sqrt a`; `⊤` stands for
`float('inf')`. -/
abbrev DistE : Type := WithTop ℚ

/-- Kernel-friendly decision procedure for `<` on `DistE`, so that concrete runs
of the embedded program evaluate by `decide`. -/
instance (priority := 10000) decLtDistE : @DecidableRel DistE (fun a b => a < b) := fun a b =>
  match a, b with
  | Option.some x, Option.some y =>
      decidable_of_iff (x < y) (WithTop.coe_lt_coe).symm
  | Option.some x, Option.none => isTrue (WithTop.coe_lt_top x)
  | Option.none, _ => isFalse not_top_lt

/-- The `(Optional[Point], Optional[Point])` component of a result. -/
abbrev OPair : Type := Option Point × Option Point

/-- The squared Euclidean distance; `euclidean_distance(p, q)` in the program is
`Real.sqrt (dist2 p q)` (see the bridge lemmas). -/
def dist2 (p q : Point) : ℚ :=
  (p.1 - q.1) ^ 2 + (p.2 - q.2) ^ 2

/-- Encoded form of the comparison `c < d` between a plain number `c` and a
distance `d` encoded as a square: `c < Real.sqrt a ↔ c < 0 ∨ c * c < a`. -/
def qltE (c : ℚ) (d : DistE) : Prop :=
  c < 0 ∨ ((c * c : ℚ) : DistE) < d

instance (c : ℚ) (d : DistE) : Decidable (qltE c d) := by
  unfold qltE; exact inferInstance

/-- One step of the running-minimum update performed by the brute-force scan:
strict improvement `d < min_dist` replaces the running state. -/
def upd (st : DistE × OPair) (pq : Point × Point) : DistE × OPair :=
  if ((dist2 pq.1 pq.2 : ℚ) : DistE) < st.1 then
    (((dist2 pq.1 pq.2 : ℚ) : DistE), (some pq.1, some pq.2))
  else st

/-- Folding the running-minimum update over a list of candidate pairs. -/
def scanMin (ps : List (Point × Point)) (st : DistE × OPair) : DistE × OPair :=
  ps.foldl upd st

/-- All pairs `(points[i], points[j])` with `i < j`, in the scan order of the
brute-force double loop. -/
def allPairs : List Point → List (Point × Point)
  | [] => []
  | p :: rest => (rest.map fun q => (p, q)) ++ allPairs rest

/-- The inner loop `for j in range(i+1, n)` of `brute_force_closest_pair`,
scanning point `p` against the later points `qs`.  `Sum.inl` is the early
`return 0.0, closest_pair` when a zero distance is found; `Sum.inr` means the
loop ran to completion with the given state. -/
def bfInner (p : Point) : List Point → DistE → OPair → (DistE × OPair) ⊕ (DistE × OPair)
  | [], md, best => Sum.inr (md, best)
  | q :: rest, md, best =>
    if ((dist2 p q : ℚ) : DistE) < md then
      if dist2 p q = 0 then Sum.inl (((0 : ℚ) : DistE), (some p, some q))
      else bfInner p rest ((dist2 p q : ℚ) : DistE) (some p, some q)
    else bfInner p rest md best

/-- The outer loop `for i in range(n)` of `brute_force_closest_pair`. -/
def bfOuter : List Point → DistE → OPair → DistE × OPair
  | [], md, best => (md, best)
  | p :: rest, md, best =>
    match bfInner p rest md best with
    | Sum.inl r => r
    | Sum.inr st => bfOuter rest st.1 st.2

/-- `brute_force_closest_pair` (lines 17-34 of `closest_pair.py`). -/
def brute_force_closest_pair (points : List Point) : DistE × OPair :=
  if points.length < 2 then ((⊤ : DistE), (none, none))
  else bfOuter points (⊤ : DistE) (none, none)

/-- The inner `while j < n and (strip[j][1] - strip[i][1]) < min_dist` loop of
`_closest_in_strip`.  The guard reads the current, possibly-updated running
minimum.  `Sum.inl` is the early `return 0.0, closest_pair`; `Sum.inr` means the
while-loop exited and the outer loop continues with the given state. -/
def stripInner (p : Point) : List Point → DistE → OPair → (DistE × OPair) ⊕ (DistE × OPair)
  | [], md, best => Sum.inr (md, best)
  | q :: rest, md, best =>
    if qltE (q.2 - p.2) md then
      if ((dist2 p q : ℚ) : DistE) < md then
        if dist2 p q = 0 then Sum.inl (((0 : ℚ) : DistE), (some p, some q))
        else stripInner p rest ((dist2 p q : ℚ) : DistE) (some p, some q)
      else stripInner p rest md best
    else Sum.inr (md, best)

/-- The outer `for i in range(n)` loop of `_closest_in_strip`. -/
def stripOuter : List Point → DistE × OPair → DistE × OPair
  | [], st => st
  | p :: rest, st =>
    match stripInner p rest st.1 st.2 with
    | Sum.inl r => r
    | Sum.inr st2 => stripOuter rest st2

/-- `_closest_in_strip` (lines 88-104 of `closest_pair.py`): running minimum
starts at the caller's `d_min` with no pair recorded. -/
def _closest_in_strip (strip : List Point) (d_min : DistE) : DistE × OPair :=
  stripOuter strip (d_min, (none, none))

/-- The combine step of `_closest_pair_rec` (lines 73-78): strict comparison,
so the right result is taken on ties. -/
def combine (r1 r2 : DistE × OPair) : DistE × OPair :=
  if r1.1 < r2.1 then r1 else r2

/-- The split of `px` at its midpoint index (lines 59-60):
`px_left = px[:mid]`, `px_right = px[mid:]` with `mid = len(px) // 2`. -/
def pxSplit (px : List Point) : List Point × List Point :=
  (px.take (px.length / 2), px.drop (px.length / 2))

/-- `mid_x = px[mid][0]` (line 56). -/
def midX (px : List Point) : ℚ :=
  (px.getD (px.length / 2) (0, 0)).1

/-- The partition of `py` by x-coordinate against `mid_x` (lines 63-68):
`≤` goes left, `>` goes right, each preserving relative order. -/
def pyPartition (py : List Point) (mid_x : ℚ) : List Point × List Point :=
  (py.filter fun p => decide (p.1 ≤ mid_x), py.filter fun p => !decide (p.1 ≤ mid_x))

/-- `_closest_pair_rec` (lines 49-85 of `closest_pair.py`). -/
def _closest_pair_rec (px py : List Point) : DistE × OPair :=
  if _hn : px.length ≤ 3 then brute_force_closest_pair px
  else
    let mid_x := midX px
    let r1 := _closest_pair_rec (pxSplit px).1 (pyPartition py mid_x).1
    let r2 := _closest_pair_rec (pxSplit px).2 (pyPartition py mid_x).2
    let best := combine r1 r2
    let strip := py.filter fun p => decide (qltE |p.1 - mid_x| best.1)
    let res := _closest_in_strip strip best.1
    if res.1 < best.1 then res else best
termination_by px.length
decreasing_by
  · simp only [pxSplit, List.length_take]
    omega
  · simp only [pxSplit, List.length_drop]
    omega

/-- `sorted(points, key=lambda p: p[0])`: Python's `sorted` is the stable sort
by the key, which is exactly `List.insertionSort` with the non-strict key
comparison. -/
def sortX (points : List Point) : List Point :=
  List.insertionSort (fun a b => a.1 ≤ b.1) points

/-- `sorted(points, key=lambda p: p[1])`. -/
def sortY (points : List Point) : List Point :=
  List.insertionSort (fun a b => a.2 ≤ b.2) points

/-- `closest_pair_dnc` (lines 37-46 of `closest_pair.py`). -/
def closest_pair_dnc (points : List Point) : DistE × OPair :=
  if points.length < 2 then ((⊤ : DistE), (none, none))
  else _closest_pair_rec (sortX points) (sortY points)

instance : IsTotal Point (fun a b => a.1 ≤ b.1) := ⟨fun a b => le_total a.1 b.1⟩

instance : IsTrans Point (fun a b => a.1 ≤ b.1) := ⟨fun _ _ _ h1 h2 => le_trans h1 h2⟩

instance : IsTotal Point (fun a b => a.2 ≤ b.2) := ⟨fun a b => le_total a.2 b.2⟩

instance : IsTrans Point (fun a b => a.2 ≤ b.2) := ⟨fun _ _ _ h1 h2 => le_trans h1 h2⟩

section BasicFacts

theorem dist2_nonneg (p q : Point) : 0 ≤ dist2 p q := by
  unfold dist2; positivity

theorem dist2_comm (p q : Point) : dist2 p q = dist2 q p := by
  unfold dist2; ring

theorem sq_dy_le_dist2 (p q : Point) : (q.2 - p.2) * (q.2 - p.2) ≤ dist2 p q := by
  unfold dist2
  nlinarith [sq_nonneg (p.1 - q.1), sq_nonneg (p.2 - q.2)]

/-- Bridge: the encoded comparison of two distances agrees with the real
comparison of the distances they stand for. -/
theorem distE_lt_iff_sqrt_lt (a b : ℚ) (ha : 0 ≤ a) (_hb : 0 ≤ b) :
    ((a : DistE) < (b : DistE)) ↔ Real.sqrt a < Real.sqrt b := by
  rw [WithTop.coe_lt_coe]
  constructor
  · intro h
    exact Real.sqrt_lt_sqrt (by exact_mod_cast ha) (by exact_mod_cast h)
  · intro h
    by_contra hc
    push_neg at hc
    exact absurd (Real.sqrt_le_sqrt (by exact_mod_cast hc)) (not_le_of_lt h)

/-- Bridge: the encoded comparison `qltE c a` agrees with `c < Real.sqrt a`,
and every number is below the infinite sentinel. -/
theorem qltE_iff_lt_sqrt (c a : ℚ) (ha : 0 ≤ a) :
    (qltE c ((a : ℚ) : DistE) ↔ (c : ℝ) < Real.sqrt a) ∧ qltE c (⊤ : DistE) := by
  constructor
  · unfold qltE
    rw [WithTop.coe_lt_coe]
    constructor
    · rintro (hc | hc)
      · exact lt_of_lt_of_le (by exact_mod_cast hc) (Real.sqrt_nonneg _)
      · have h0 : (0 : ℝ) ≤ (c : ℝ) ∨ (c : ℝ) < 0 := le_or_lt 0 _
        rcases h0 with h0 | h0
        · have : (c : ℝ) * (c : ℝ) < (a : ℝ) := by exact_mod_cast hc
          nlinarith [Real.sq_sqrt (show (0:ℝ) ≤ (a:ℝ) by exact_mod_cast ha),
            Real.sqrt_nonneg (a : ℝ)]
        · exact lt_of_lt_of_le h0 (Real.sqrt_nonneg _)
    · intro h
      rcases lt_or_le c 0 with hc | hc
      · exact Or.inl hc
      · refine Or.inr ?_
        have h0 : (0 : ℝ) ≤ (c : ℝ) := by exact_mod_cast hc
        have := Real.sq_sqrt (show (0:ℝ) ≤ (a:ℝ) by exact_mod_cast ha)
        have hcc : (c : ℝ) * (c : ℝ) < (a : ℝ) := by
          nlinarith [Real.sqrt_nonneg (a : ℝ)]
        exact_mod_cast hcc
  · exact Or.inr (WithTop.coe_lt_top _)

/-- Bridge: the zero test on the encoding agrees with the zero test on the
real distance. -/
theorem eq_zero_iff_sqrt_eq_zero (a : ℚ) (ha : 0 ≤ a) :
    a = 0 ↔ Real.sqrt a = 0 := by
  constructor
  · intro h; simp [h]
  · intro h
    have := Real.sqrt_eq_zero (show (0:ℝ) ≤ (a:ℝ) by exact_mod_cast ha) |>.mp h
    exact_mod_cast this

end BasicFacts

section ScanMin

theorem scanMin_nil (st : DistE × OPair) : scanMin [] st = st := rfl

theorem scanMin_cons (pq : Point × Point) (ps : List (Point × Point)) (st : DistE × OPair) :
    scanMin (pq :: ps) st = scanMin ps (upd st pq) := rfl

theorem scanMin_append (ps1 ps2 : List (Point × Point)) (st : DistE × OPair) :
    scanMin (ps1 ++ ps2) st = scanMin ps2 (scanMin ps1 st) :=
  List.foldl_append ..

theorem upd_fst_le (st : DistE × OPair) (pq : Point × Point) : (upd st pq).1 ≤ st.1 := by
  unfold upd
  split
  · exact le_of_lt (by assumption)
  · exact le_rfl

theorem scanMin_fst_le (ps : List (Point × Point)) (st : DistE × OPair) :
    (scanMin ps st).1 ≤ st.1 := by
  induction ps generalizing st with
  | nil => exact le_rfl
  | cons pq ps ih =>
    rw [scanMin_cons]
    exact le_trans (ih _) (upd_fst_le _ _)

theorem scanMin_le_of_mem (ps : List (Point × Point)) (st : DistE × OPair)
    (pq : Point × Point) (h : pq ∈ ps) :
    (scanMin ps st).1 ≤ ((dist2 pq.1 pq.2 : ℚ) : DistE) := by
  induction ps generalizing st with
  | nil => cases h
  | cons hd ps ih =>
    rw [scanMin_cons]
    rcases List.mem_cons.mp h with rfl | h
    · refine le_trans (scanMin_fst_le _ _) ?_
      unfold upd
      split
      · exact le_rfl
      · exact le_of_not_lt (by assumption)
    · exact ih _ h

theorem scanMin_no_improve (ps : List (Point × Point)) (st : DistE × OPair)
    (h : ∀ pq ∈ ps, ¬ ((dist2 pq.1 pq.2 : ℚ) : DistE) < st.1) :
    scanMin ps st = st := by
  induction ps with
  | nil => rfl
  | cons hd ps ih =>
    rw [scanMin_cons]
    have hhd := h hd (List.mem_cons_self hd ps)
    have hupd : upd st hd = st := by unfold upd; rw [if_neg hhd]
    rw [hupd]
    exact ih fun pq hpq => h pq (List.mem_cons_of_mem _ hpq)

theorem scanMin_src (ps : List (Point × Point)) (st : DistE × OPair) :
    scanMin ps st = st ∨
      ∃ pq ∈ ps, scanMin ps st = (((dist2 pq.1 pq.2 : ℚ) : DistE), (some pq.1, some pq.2)) := by
  induction ps generalizing st with
  | nil => exact Or.inl rfl
  | cons hd ps ih =>
    rw [scanMin_cons]
    by_cases hlt : ((dist2 hd.1 hd.2 : ℚ) : DistE) < st.1
    · have hupd : upd st hd = (((dist2 hd.1 hd.2 : ℚ) : DistE), (some hd.1, some hd.2)) := by
        unfold upd; rw [if_pos hlt]
      rw [hupd]
      rcases ih (((dist2 hd.1 hd.2 : ℚ) : DistE), (some hd.1, some hd.2)) with heq | ⟨pq, hpq, heq⟩
      · exact Or.inr ⟨hd, List.mem_cons_self hd ps, heq⟩
      · exact Or.inr ⟨pq, List.mem_cons_of_mem _ hpq, heq⟩
    · have hupd : upd st hd = st := by unfold upd; rw [if_neg hlt]
      rw [hupd]
      rcases ih st with heq | ⟨pq, hpq, heq⟩
      · exact Or.inl heq
      · exact Or.inr ⟨pq, List.mem_cons_of_mem _ hpq, heq⟩

end ScanMin

section BruteForce

/-- Merge the two ways a loop can deliver its state (early return or normal
completion) into the state itself. -/
def mergeS (r : (DistE × OPair) ⊕ (DistE × OPair)) : DistE × OPair :=
  Sum.elim id id r

theorem not_dist2_lt_zero (a b : Point) :
    ¬ ((dist2 a b : ℚ) : DistE) < ((0 : ℚ) : DistE) := by
  rw [WithTop.coe_lt_coe]
  exact not_lt_of_le (dist2_nonneg a b)

theorem bfInner_inl (p : Point) (qs : List Point) (md : DistE) (b : OPair)
    (r : DistE × OPair) (h : bfInner p qs md b = Sum.inl r) :
    r.1 = ((0 : ℚ) : DistE) := by
  induction qs generalizing md b with
  | nil => simp [bfInner] at h
  | cons q rest ih =>
    rw [bfInner] at h
    split at h
    · split at h
      · cases h; rfl
      · exact ih _ _ h
    · exact ih _ _ h

theorem bfInner_eq_scan (p : Point) (qs : List Point) (md : DistE) (b : OPair) :
    mergeS (bfInner p qs md b) = scanMin (qs.map fun q => (p, q)) (md, b) := by
  induction qs generalizing md b with
  | nil => rfl
  | cons q rest ih =>
    rw [bfInner, List.map_cons, scanMin_cons]
    by_cases hlt : ((dist2 p q : ℚ) : DistE) < md
    · rw [if_pos hlt]
      have hupd : upd (md, b) (p, q) = (((dist2 p q : ℚ) : DistE), (some p, some q)) := by
        unfold upd; rw [if_pos hlt]
      by_cases h0 : dist2 p q = 0
      · rw [if_pos h0, hupd, h0]
        have : scanMin (rest.map fun q2 => (p, q2)) (((0:ℚ) : DistE), (some p, some q)) =
            (((0:ℚ) : DistE), (some p, some q)) := by
          refine scanMin_no_improve _ _ fun pq _ => ?_
          exact not_dist2_lt_zero pq.1 pq.2
        rw [this]
        rfl
      · rw [if_neg h0, hupd]
        exact ih _ _
    · rw [if_neg hlt]
      have hupd : upd (md, b) (p, q) = (md, b) := by unfold upd; rw [if_neg hlt]
      rw [hupd]
      exact ih _ _

theorem bfOuter_eq_scan (l : List Point) (md : DistE) (b : OPair) :
    bfOuter l md b = scanMin (allPairs l) (md, b) := by
  induction l generalizing md b with
  | nil => rfl
  | cons p rest ih =>
    rw [bfOuter, allPairs, scanMin_append]
    rcases hinner : bfInner p rest md b with r | ⟨st1, st2⟩
    · have hr : r = scanMin (rest.map fun q => (p, q)) (md, b) := by
        have := bfInner_eq_scan p rest md b
        rw [hinner] at this
        exact this
      have h0 : r.1 = ((0 : ℚ) : DistE) := bfInner_inl p rest md b r hinner
      rw [← hr]
      refine (scanMin_no_improve _ _ fun pq _ => ?_).symm
      rw [h0]
      exact not_dist2_lt_zero pq.1 pq.2
    · have hst : (st1, st2) = scanMin (rest.map fun q => (p, q)) (md, b) := by
        have := bfInner_eq_scan p rest md b
        rw [hinner] at this
        exact this
      show bfOuter rest st1 st2 = _
      rw [ih st1 st2, hst]

theorem bf_eq_scan (l : List Point) :
    brute_force_closest_pair l = scanMin (allPairs l) ((⊤ : DistE), (none, none)) := by
  match l with
  | [] => rfl
  | [p] => rfl
  | p :: q :: rest =>
    rw [brute_force_closest_pair, if_neg (by simp), bfOuter_eq_scan]

theorem mem_allPairs_iff (l : List Point) (u v : Point) :
    (u, v) ∈ allPairs l ↔ [u, v].Sublist l := by
  induction l with
  | nil => simp [allPairs]
  | cons p rest ih =>
    rw [allPairs, List.mem_append]
    constructor
    · rintro (hm | hm)
      · rcases List.mem_map.mp hm with ⟨q, hq, heq⟩
        cases heq
        exact List.Sublist.cons₂ _ (List.singleton_sublist.mpr hq)
      · exact List.Sublist.cons _ (ih.mp hm)
    · intro hs
      cases hs with
      | cons _ h => exact Or.inr (ih.mpr h)
      | cons₂ _ h =>
        exact Or.inl (List.mem_map.mpr ⟨v, List.singleton_sublist.mp h, rfl⟩)

theorem bf_le_of_pair (l : List Point) (u v : Point) (h : [u, v].Sublist l) :
    (brute_force_closest_pair l).1 ≤ ((dist2 u v : ℚ) : DistE) := by
  rw [bf_eq_scan]
  exact scanMin_le_of_mem _ _ (u, v) ((mem_allPairs_iff l u v).mpr h)

theorem bf_fin (l : List Point) (h : 2 ≤ l.length) :
    ∃ u v, [u, v].Sublist l ∧
      brute_force_closest_pair l = (((dist2 u v : ℚ) : DistE), (some u, some v)) := by
  rcases l with _ | ⟨p, _ | ⟨q, rest⟩⟩
  · simp at h
  · simp at h
  · have hmem : (p, q) ∈ allPairs (p :: q :: rest) := by
      rw [mem_allPairs_iff]
      exact List.Sublist.cons₂ _ (List.Sublist.cons₂ _ (List.nil_sublist _))
    have hle := bf_le_of_pair (p :: q :: rest) p q ((mem_allPairs_iff _ _ _).mp hmem)
    rw [bf_eq_scan] at hle ⊢
    rcases scanMin_src (allPairs (p :: q :: rest)) ((⊤ : DistE), (none, none)) with heq |
        ⟨pq, hpq, heq⟩
    · rw [heq] at hle
      exact absurd hle (by simp)
    · exact ⟨pq.1, pq.2, (mem_allPairs_iff _ _ _).mp hpq, heq⟩

theorem find?_congr_mem {α : Type} (l : List α) (p q : α → Bool)
    (h : ∀ x ∈ l, p x = q x) : l.find? p = l.find? q := by
  induction l with
  | nil => rfl
  | cons x rest ih =>
    rw [List.find?_cons, List.find?_cons, h x (List.mem_cons_self x rest),
      ih fun y hy => h y (List.mem_cons_of_mem _ hy)]

theorem scanMin_argmin (ps : List (Point × Point)) (m : ℚ) (ab : Point × Point) :
    ∃ m2 a2 b2,
      scanMin ps (((m : ℚ) : DistE), (some ab.1, some ab.2)) =
        (((m2 : ℚ) : DistE), (some a2, some b2)) ∧
      m2 ≤ m ∧ (∀ pq ∈ ps, m2 ≤ dist2 pq.1 pq.2) ∧
      ((m2 = m ∧ a2 = ab.1 ∧ b2 = ab.2 ∧ ∀ pq ∈ ps, ¬ dist2 pq.1 pq.2 < m) ∨
       (m2 < m ∧ ps.find? (fun pq => decide (dist2 pq.1 pq.2 ≤ m2)) = some (a2, b2))) := by
  induction ps generalizing m ab with
  | nil =>
    exact ⟨m, ab.1, ab.2, rfl, le_rfl, by simp, Or.inl ⟨rfl, rfl, rfl, by simp⟩⟩
  | cons hd tl ih =>
    rw [scanMin_cons]
    by_cases hlt : dist2 hd.1 hd.2 < m
    · have hupd : upd (((m : ℚ) : DistE), (some ab.1, some ab.2)) hd =
          (((dist2 hd.1 hd.2 : ℚ) : DistE), (some hd.1, some hd.2)) := by
        unfold upd
        rw [if_pos (WithTop.coe_lt_coe.mpr hlt)]
      rw [hupd]
      rcases ih (dist2 hd.1 hd.2) hd with ⟨m2, a2, b2, heq, hle, hall, hcase⟩
      refine ⟨m2, a2, b2, heq, le_of_lt (lt_of_le_of_lt hle hlt), ?_, ?_⟩
      · intro pq hpq
        rcases List.mem_cons.mp hpq with rfl | hpq
        · exact hle
        · exact hall pq hpq
      · refine Or.inr ?_
        rcases hcase with ⟨hm2, ha2, hb2, _⟩ | ⟨hm2, hfind⟩
        · refine ⟨hm2 ▸ hlt, ?_⟩
          rw [List.find?_cons]
          have : decide (dist2 hd.1 hd.2 ≤ m2) = true := by
            rw [decide_eq_true_eq, hm2]
          rw [this, ha2, hb2]
        · refine ⟨lt_trans hm2 hlt, ?_⟩
          rw [List.find?_cons]
          have : decide (dist2 hd.1 hd.2 ≤ m2) = false := by
            rw [decide_eq_false_iff_not]
            exact not_le_of_lt hm2
          rw [this, hfind]
    · have hupd : upd (((m : ℚ) : DistE), (some ab.1, some ab.2)) hd =
          (((m : ℚ) : DistE), (some ab.1, some ab.2)) := by
        unfold upd
        rw [if_neg (fun hc => hlt (WithTop.coe_lt_coe.mp hc))]
      rw [hupd]
      rcases ih m ab with ⟨m2, a2, b2, heq, hle, hall, hcase⟩
      refine ⟨m2, a2, b2, heq, hle, ?_, ?_⟩
      · intro pq hpq
        rcases List.mem_cons.mp hpq with rfl | hpq
        · exact le_trans hle (le_of_not_lt hlt)
        · exact hall pq hpq
      · rcases hcase with ⟨hm2, ha2, hb2, hnone⟩ | ⟨hm2, hfind⟩
        · refine Or.inl ⟨hm2, ha2, hb2, ?_⟩
          intro pq hpq
          rcases List.mem_cons.mp hpq with rfl | hpq
          · exact hlt
          · exact hnone pq hpq
        · refine Or.inr ⟨hm2, ?_⟩
          rw [List.find?_cons]
          have : decide (dist2 hd.1 hd.2 ≤ m2) = false := by
            rw [decide_eq_false_iff_not]
            intro hc
            exact hlt (lt_of_le_of_lt hc hm2)
          rw [this, hfind]

/-- Full characterization of the brute-force scan on an input with at least two
points: the result is the minimum over all scanned pairs, and the returned pair
is the earliest pair (in scan order) attaining that minimum. -/
theorem bf_argmin (l : List Point) (h : 2 ≤ l.length) :
    ∃ m a b,
      brute_force_closest_pair l = (((m : ℚ) : DistE), (some a, some b)) ∧
      (∀ pq ∈ allPairs l, m ≤ dist2 pq.1 pq.2) ∧
      (allPairs l).find? (fun pq => decide (dist2 pq.1 pq.2 ≤ m)) = some (a, b) := by
  rcases l with _ | ⟨p, _ | ⟨q, rest⟩⟩
  · simp at h
  · simp at h
  · rw [bf_eq_scan]
    have hhead : allPairs (p :: q :: rest) =
        (p, q) :: ((rest.map fun r => (p, r)) ++ allPairs (q :: rest)) := by
      rw [allPairs]
      simp
    rw [hhead, scanMin_cons]
    have hupd : upd ((⊤ : DistE), (none, none)) (p, q) =
        (((dist2 p q : ℚ) : DistE), (some p, some q)) := by
      unfold upd
      rw [if_pos (WithTop.coe_lt_top _)]
    rw [hupd]
    rcases scanMin_argmin ((rest.map fun r => (p, r)) ++ allPairs (q :: rest))
        (dist2 p q) (p, q) with ⟨m2, a2, b2, heq, hle, hall, hcase⟩
    refine ⟨m2, a2, b2, heq, ?_, ?_⟩
    · intro pq hpq
      rcases List.mem_cons.mp hpq with rfl | hpq
      · exact hle
      · exact hall pq hpq
    · rw [List.find?_cons]
      rcases hcase with ⟨hm2, ha2, hb2, _⟩ | ⟨hm2, hfind⟩
      · have : decide (dist2 p q ≤ m2) = true := by
          rw [decide_eq_true_eq, hm2]
        rw [this, ha2, hb2]
      · have : decide (dist2 p q ≤ m2) = false := by
          rw [decide_eq_false_iff_not]
          exact not_le_of_lt hm2
        rw [this, hfind]

end BruteForce

section Strip

theorem stripInner_inl (p : Point) (qs : List Point) (md : DistE) (b : OPair)
    (r : DistE × OPair) (h : stripInner p qs md b = Sum.inl r) :
    r.1 = ((0 : ℚ) : DistE) ∧ r.1 < md := by
  induction qs generalizing md b with
  | nil => simp [stripInner] at h
  | cons q rest ih =>
    rw [stripInner] at h
    by_cases hguard : qltE (q.2 - p.2) md
    · rw [if_pos hguard] at h
      by_cases hlt : ((dist2 p q : ℚ) : DistE) < md
      · rw [if_pos hlt] at h
        by_cases h0 : dist2 p q = 0
        · rw [if_pos h0] at h
          cases h
          refine ⟨rfl, ?_⟩
          rw [← h0]
          exact hlt
        · rw [if_neg h0] at h
          rcases ih _ _ h with ⟨h1, h2⟩
          exact ⟨h1, lt_trans h2 hlt⟩
      · rw [if_neg hlt] at h
        exact ih _ _ h
    · rw [if_neg hguard] at h
      cases h

theorem stripInner_mono (p : Point) (qs : List Point) (md : DistE) (b : OPair) :
    (mergeS (stripInner p qs md b)).1 ≤ md := by
  induction qs generalizing md b with
  | nil => exact le_rfl
  | cons q rest ih =>
    rw [stripInner]
    by_cases hguard : qltE (q.2 - p.2) md
    · rw [if_pos hguard]
      by_cases hlt : ((dist2 p q : ℚ) : DistE) < md
      · rw [if_pos hlt]
        by_cases h0 : dist2 p q = 0
        · rw [if_pos h0]
          show ((0 : ℚ) : DistE) ≤ md
          rw [← h0]
          exact le_of_lt hlt
        · rw [if_neg h0]
          exact le_trans (ih _ _) (le_of_lt hlt)
      · rw [if_neg hlt]
        exact ih _ _
    · rw [if_neg hguard]
      exact le_rfl

theorem stripOuter_mono (l : List Point) (st : DistE × OPair) :
    (stripOuter l st).1 ≤ st.1 := by
  induction l generalizing st with
  | nil => exact le_rfl
  | cons x rest ih =>
    rw [stripOuter]
    rcases hinner : stripInner x rest st.1 st.2 with r | st2
    · rcases stripInner_inl x rest st.1 st.2 r hinner with ⟨_, h2⟩
      exact le_of_lt h2
    · have hmono := stripInner_mono x rest st.1 st.2
      rw [hinner] at hmono
      exact le_trans (ih st2) hmono

theorem stripInner_le (p : Point) (qs : List Point) (md : DistE) (b : OPair)
    (q : Point) (hsort : qs.Pairwise fun a c => a.2 ≤ c.2)
    (hq : q ∈ qs) :
    (mergeS (stripInner p qs md b)).1 ≤ ((dist2 p q : ℚ) : DistE) := by
  induction qs generalizing md b with
  | nil => cases hq
  | cons q0 rest ih =>
    rcases List.pairwise_cons.mp hsort with ⟨hq0rest, hrest⟩
    rw [stripInner]
    by_cases hguard : qltE (q0.2 - p.2) md
    · rw [if_pos hguard]
      by_cases hlt : ((dist2 p q0 : ℚ) : DistE) < md
      · rw [if_pos hlt]
        by_cases h0 : dist2 p q0 = 0
        · rw [if_pos h0]
          show ((0 : ℚ) : DistE) ≤ _
          rw [WithTop.coe_le_coe]
          exact dist2_nonneg p q
        · rw [if_neg h0]
          rcases List.mem_cons.mp hq with rfl | hq2
          · exact le_trans (stripInner_mono _ _ _ _) le_rfl
          · exact ih _ _ hrest hq2
      · rw [if_neg hlt]
        rcases List.mem_cons.mp hq with rfl | hq2
        · exact le_trans (stripInner_mono _ _ _ _) (le_of_not_lt hlt)
        · exact ih _ _ hrest hq2
    · rw [if_neg hguard]
      unfold qltE at hguard
      push_neg at hguard
      rcases hguard with ⟨hc0, hcmd⟩
      show md ≤ _
      rcases List.mem_cons.mp hq with rfl | hq2
      · refine le_trans hcmd ?_
        rw [WithTop.coe_le_coe]
        exact sq_dy_le_dist2 p q
      · refine le_trans hcmd ?_
        rw [WithTop.coe_le_coe]
        have hy : q0.2 ≤ q.2 := hq0rest q hq2
        have hc2 : q0.2 - p.2 ≤ q.2 - p.2 := by linarith
        have hsq : (q0.2 - p.2) * (q0.2 - p.2) ≤ (q.2 - p.2) * (q.2 - p.2) :=
          mul_le_mul hc2 hc2 hc0 (le_trans hc0 hc2)
        exact le_trans hsq (sq_dy_le_dist2 p q)

theorem stripOuter_le (strip : List Point) (st : DistE × OPair)
    (a b : Point) (hsort : strip.Pairwise fun u v => u.2 ≤ v.2)
    (hab : [a, b].Sublist strip) :
    (stripOuter strip st).1 ≤ ((dist2 a b : ℚ) : DistE) := by
  induction strip generalizing st with
  | nil => cases hab
  | cons x rest ih =>
    rcases List.pairwise_cons.mp hsort with ⟨hxrest, hrest⟩
    rw [stripOuter]
    rcases hinner : stripInner x rest st.1 st.2 with r | st2
    · rcases stripInner_inl x rest st.1 st.2 r hinner with ⟨h1, _⟩
      show r.1 ≤ _
      rw [h1, WithTop.coe_le_coe]
      exact dist2_nonneg a b
    · show (stripOuter rest st2).1 ≤ _
      cases hab with
      | cons _ hab2 => exact ih st2 hrest hab2
      | cons₂ _ hb =>
        have hbmem : b ∈ rest := List.singleton_sublist.mp hb
        have hle := stripInner_le a rest st.1 st.2 b hrest hbmem
        rw [hinner] at hle
        exact le_trans (stripOuter_mono rest st2) hle

theorem stripInner_no_improve (p : Point) (qs : List Point) (md : DistE) (b : OPair)
    (h : ∀ q ∈ qs, ¬ ((dist2 p q : ℚ) : DistE) < md) :
    stripInner p qs md b = Sum.inr (md, b) := by
  induction qs with
  | nil => rfl
  | cons q rest ih =>
    rw [stripInner]
    by_cases hguard : qltE (q.2 - p.2) md
    · rw [if_pos hguard, if_neg (h q (List.mem_cons_self q rest))]
      exact ih fun q2 hq2 => h q2 (List.mem_cons_of_mem _ hq2)
    · rw [if_neg hguard]

theorem stripOuter_no_improve (strip : List Point) (st : DistE × OPair)
    (h : ∀ u v, [u, v].Sublist strip → ¬ ((dist2 u v : ℚ) : DistE) < st.1) :
    stripOuter strip st = st := by
  induction strip with
  | nil => rfl
  | cons x rest ih =>
    rw [stripOuter]
    have hinner : stripInner x rest st.1 st.2 = Sum.inr (st.1, st.2) := by
      refine stripInner_no_improve x rest st.1 st.2 fun q hq => ?_
      exact h x q (List.Sublist.cons₂ _ (List.singleton_sublist.mpr hq))
    rw [hinner]
    show stripOuter rest (st.1, st.2) = st
    have : (st.1, st.2) = st := rfl
    rw [this]
    exact ih fun u v huv => h u v (List.Sublist.cons _ huv)

theorem stripInner_src (p : Point) (qs : List Point) (md : DistE) (b : OPair) :
    mergeS (stripInner p qs md b) = (md, b) ∨
      ∃ q ∈ qs, mergeS (stripInner p qs md b) =
        (((dist2 p q : ℚ) : DistE), (some p, some q)) := by
  induction qs generalizing md b with
  | nil => exact Or.inl rfl
  | cons q0 rest ih =>
    rw [stripInner]
    by_cases hguard : qltE (q0.2 - p.2) md
    · rw [if_pos hguard]
      by_cases hlt : ((dist2 p q0 : ℚ) : DistE) < md
      · rw [if_pos hlt]
        by_cases h0 : dist2 p q0 = 0
        · rw [if_pos h0]
          refine Or.inr ⟨q0, List.mem_cons_self q0 rest, ?_⟩
          rw [h0]
          rfl
        · rw [if_neg h0]
          rcases ih ((dist2 p q0 : ℚ) : DistE) (some p, some q0) with heq | ⟨q, hq, heq⟩
          · exact Or.inr ⟨q0, List.mem_cons_self q0 rest, heq⟩
          · exact Or.inr ⟨q, List.mem_cons_of_mem _ hq, heq⟩
      · rw [if_neg hlt]
        rcases ih md b with heq | ⟨q, hq, heq⟩
        · exact Or.inl heq
        · exact Or.inr ⟨q, List.mem_cons_of_mem _ hq, heq⟩
    · rw [if_neg hguard]
      exact Or.inl rfl

theorem stripOuter_src (strip : List Point) (st : DistE × OPair) :
    stripOuter strip st = st ∨
      ∃ u v, [u, v].Sublist strip ∧
        stripOuter strip st = (((dist2 u v : ℚ) : DistE), (some u, some v)) := by
  induction strip generalizing st with
  | nil => exact Or.inl rfl
  | cons x rest ih =>
    rw [stripOuter]
    rcases hinner : stripInner x rest st.1 st.2 with r | st2
    · have hsrc := stripInner_src x rest st.1 st.2
      rw [hinner] at hsrc
      show r = st ∨ ∃ u v, [u, v].Sublist (x :: rest) ∧
        r = (((dist2 u v : ℚ) : DistE), (some u, some v))
      rcases hsrc with heq | ⟨q, hq, heq⟩
      · exact Or.inl heq
      · exact Or.inr ⟨x, q, List.Sublist.cons₂ _ (List.singleton_sublist.mpr hq), heq⟩
    · have hsrc := stripInner_src x rest st.1 st.2
      rw [hinner] at hsrc
      show stripOuter rest st2 = st ∨ ∃ u v, [u, v].Sublist (x :: rest) ∧
        stripOuter rest st2 = (((dist2 u v : ℚ) : DistE), (some u, some v))
      have hsrc2 : st2 = (st.1, st.2) ∨
          ∃ q ∈ rest, st2 = (((dist2 x q : ℚ) : DistE), (some x, some q)) := hsrc
      rcases ih st2 with houter | ⟨u, v, huv, houter⟩
      · rcases hsrc2 with heq | ⟨q, hq, heq⟩
        · rw [houter, heq]
          exact Or.inl rfl
        · rw [houter, heq]
          exact Or.inr ⟨x, q, List.Sublist.cons₂ _ (List.singleton_sublist.mpr hq), rfl⟩
      · exact Or.inr ⟨u, v, List.Sublist.cons _ huv, houter⟩

end Strip

section RecHelpers

theorem sq_dx_le_dist2 (p q : Point) : (q.1 - p.1) * (q.1 - p.1) ≤ dist2 p q := by
  unfold dist2
  nlinarith [sq_nonneg (p.1 - q.1), sq_nonneg (p.2 - q.2)]

theorem combine_fst_le_left (r1 r2 : DistE × OPair) : (combine r1 r2).1 ≤ r1.1 := by
  unfold combine
  split
  · exact le_rfl
  · exact le_of_not_lt (by assumption)

theorem combine_fst_le_right (r1 r2 : DistE × OPair) : (combine r1 r2).1 ≤ r2.1 := by
  unfold combine
  split
  · exact le_of_lt (by assumption)
  · exact le_rfl

theorem combine_cases (r1 r2 : DistE × OPair) : combine r1 r2 = r1 ∨ combine r1 r2 = r2 := by
  unfold combine
  split
  · exact Or.inl rfl
  · exact Or.inr rfl

theorem pair_perm_cases (l : List Point) (a b : Point) (h : l.Perm [a, b]) :
    l = [a, b] ∨ l = [b, a] := by
  have hlen : l.length = 2 := by
    have := h.length_eq
    simpa using this
  rcases l with _ | ⟨x, _ | ⟨y, _ | ⟨z, t⟩⟩⟩
  · simp at hlen
  · simp at hlen
  · have hx : x ∈ ([a, b] : List Point) := h.mem_iff.mp (List.mem_cons_self _ _)
    rcases List.mem_cons.mp hx with rfl | hx2
    · have h2 : ([y] : List Point).Perm [b] := h.cons_inv
      have : y = b := by simpa using h2
      exact Or.inl (by rw [this])
    · have hxb : x = b := by simpa using hx2
      have hswap : ([a, b] : List Point).Perm [b, a] := List.Perm.swap b a []
      have h2 : ([x, y] : List Point).Perm [b, a] := h.trans hswap
      rw [hxb] at h2
      have h3 : ([y] : List Point).Perm [a] := h2.cons_inv
      have hy : y = a := by simpa using h3
      exact Or.inr (by rw [hxb, hy])
  · simp at hlen

theorem pair_subperm_elim (l : List Point) (a b : Point) (h : List.Subperm [a, b] l) :
    [a, b].Sublist l ∨ [b, a].Sublist l := by
  rcases h with ⟨l2, hperm, hsub⟩
  rcases pair_perm_cases l2 a b hperm with rfl | rfl
  · exact Or.inl hsub
  · exact Or.inr hsub

theorem pair_subperm_filter (l : List Point) (a b : Point) (p : Point → Bool)
    (h : List.Subperm [a, b] l) (hpa : p a = true) (hpb : p b = true) :
    List.Subperm [a, b] (l.filter p) := by
  rcases h with ⟨l2, hperm, hsub⟩
  have hl2 : l2.filter p = l2 := by
    rw [List.filter_eq_self]
    intro x hx
    have : x ∈ ([a, b] : List Point) := hperm.mem_iff.mp hx
    rcases List.mem_cons.mp this with rfl | hx2
    · exact hpa
    · have : x = b := by simpa using hx2
      rw [this]
      exact hpb
  exact ⟨l2, hperm, hl2 ▸ hsub.filter p⟩

theorem pair_eq_append_cases (a b : Point) (xs ys : List Point) (h : [a, b] = xs ++ ys) :
    (xs = [] ∧ ys = [a, b]) ∨ (xs = [a] ∧ ys = [b]) ∨ (xs = [a, b] ∧ ys = []) := by
  rcases xs with _ | ⟨x, _ | ⟨y, t⟩⟩
  · exact Or.inl ⟨rfl, h.symm⟩
  · rw [List.cons_append, List.nil_append] at h
    injection h with h1 h2
    subst h1
    exact Or.inr (Or.inl ⟨rfl, h2.symm⟩)
  · rw [List.cons_append, List.cons_append] at h
    injection h with h1 h3
    injection h3 with h2 h4
    subst h1
    subst h2
    rcases List.append_eq_nil.mp h4.symm with ⟨rfl, rfl⟩
    exact Or.inr (Or.inr ⟨rfl, rfl⟩)

theorem pair_sublist_fst_le (px : List Point) (hx : px.Pairwise fun u v => u.1 ≤ v.1)
    (a b : Point) (hab : [a, b].Sublist px) : a.1 ≤ b.1 := by
  have := hx.sublist hab
  exact (List.pairwise_cons.mp this).1 b (List.mem_cons_self _ _)

theorem rec_base (px py : List Point) (h : px.length ≤ 3) :
    _closest_pair_rec px py = brute_force_closest_pair px := by
  rw [_closest_pair_rec.eq_def, dif_pos h]

theorem rec_step_eq (px py : List Point) (h : ¬ px.length ≤ 3)
    (best res : DistE × OPair)
    (hbest : best = combine
      (_closest_pair_rec (pxSplit px).1 (pyPartition py (midX px)).1)
      (_closest_pair_rec (pxSplit px).2 (pyPartition py (midX px)).2))
    (hres : res = _closest_in_strip
      (py.filter fun p => decide (qltE |p.1 - midX px| best.1)) best.1) :
    _closest_pair_rec px py = if res.1 < best.1 then res else best := by
  subst hbest
  subst hres
  rw [_closest_pair_rec.eq_def, dif_neg h]

theorem bf_src (l : List Point) :
    brute_force_closest_pair l = ((⊤ : DistE), (none, none)) ∨
      ∃ u v, [u, v].Sublist l ∧
        brute_force_closest_pair l = (((dist2 u v : ℚ) : DistE), (some u, some v)) := by
  rw [bf_eq_scan]
  rcases scanMin_src (allPairs l) ((⊤ : DistE), (none, none)) with heq | ⟨pq, hpq, heq⟩
  · exact Or.inl heq
  · exact Or.inr ⟨pq.1, pq.2, (mem_allPairs_iff l pq.1 pq.2).mp hpq, heq⟩

theorem midX_mem_facts (px : List Point) (h : ¬ px.length ≤ 3)
    (hx : px.Pairwise fun u v => u.1 ≤ v.1) :
    (∀ u ∈ (pxSplit px).1, u.1 ≤ midX px) ∧ (∀ u ∈ (pxSplit px).2, midX px ≤ u.1) := by
  have hmid : px.length / 2 < px.length := by omega
  have hdrop : px.drop (px.length / 2) =
      px[px.length / 2] :: px.drop (px.length / 2 + 1) :=
    List.drop_eq_getElem_cons hmid
  have hmidx : midX px = px[px.length / 2].1 := by
    unfold midX
    rw [List.getD_eq_getElem px (0, 0) hmid]
  have hsplit : px = px.take (px.length / 2) ++ px.drop (px.length / 2) :=
    (List.take_append_drop _ _).symm
  have hpairs := hx
  rw [hsplit, List.pairwise_append] at hpairs
  rcases hpairs with ⟨htake, hdrop2, hcross⟩
  constructor
  · intro u hu
    have hhead : px[px.length / 2] ∈ px.drop (px.length / 2) := by
      rw [hdrop]
      exact List.mem_cons_self _ _
    have := hcross u hu px[px.length / 2] hhead
    rw [hmidx]
    exact this
  · intro u hu
    show midX px ≤ u.1
    unfold pxSplit at hu
    rw [hdrop] at hu
    rcases List.mem_cons.mp hu with rfl | hu2
    · rw [hmidx]
    · rw [hmidx]
      have hd2 : (px[px.length / 2] :: px.drop (px.length / 2 + 1)).Pairwise
          (fun u v => u.1 ≤ v.1) := by
        rw [← hdrop]
        exact hdrop2
      exact (List.pairwise_cons.mp hd2).1 u hu2

theorem rec_res_fst (px py : List Point) (h : ¬ px.length ≤ 3)
    (best res : DistE × OPair)
    (hbest : best = combine
      (_closest_pair_rec (pxSplit px).1 (pyPartition py (midX px)).1)
      (_closest_pair_rec (pxSplit px).2 (pyPartition py (midX px)).2))
    (hres : res = _closest_in_strip
      (py.filter fun p => decide (qltE |p.1 - midX px| best.1)) best.1) :
    (_closest_pair_rec px py).1 = res.1 := by
  rw [rec_step_eq px py h best res hbest hres]
  by_cases hlt : res.1 < best.1
  · rw [if_pos hlt]
  · rw [if_neg hlt]
    have h1 : res.1 ≤ best.1 := by
      rw [hres]
      exact stripOuter_mono _ _
    exact le_antisymm (le_of_not_lt hlt) h1

theorem rec_src (px py : List Point) :
    _closest_pair_rec px py = ((⊤ : DistE), (none, none)) ∨
      ∃ u v, ([u, v].Sublist px ∨ [u, v].Sublist py) ∧
        _closest_pair_rec px py = (((dist2 u v : ℚ) : DistE), (some u, some v)) := by
  suffices H : ∀ n (px py : List Point), px.length = n →
      (_closest_pair_rec px py = ((⊤ : DistE), (none, none)) ∨
        ∃ u v, ([u, v].Sublist px ∨ [u, v].Sublist py) ∧
          _closest_pair_rec px py = (((dist2 u v : ℚ) : DistE), (some u, some v))) by
    exact H px.length px py rfl
  intro n
  induction n using Nat.strong_induction_on with
  | _ n ih =>
    intro px py hlen
    by_cases hb : px.length ≤ 3
    · rw [rec_base px py hb]
      rcases bf_src px with heq | ⟨u, v, hsub, heq⟩
      · exact Or.inl heq
      · exact Or.inr ⟨u, v, Or.inl hsub, heq⟩
    · obtain ⟨B, hB⟩ : ∃ B, B = combine
          (_closest_pair_rec (pxSplit px).1 (pyPartition py (midX px)).1)
          (_closest_pair_rec (pxSplit px).2 (pyPartition py (midX px)).2) := ⟨_, rfl⟩
      obtain ⟨S, hS⟩ : ∃ S,
          S = py.filter fun p => decide (qltE |p.1 - midX px| B.1) := ⟨_, rfl⟩
      obtain ⟨R, hR⟩ : ∃ R, R = _closest_in_strip S B.1 := ⟨_, rfl⟩
      have hstep := rec_step_eq px py hb B R hB (by rw [hR, hS])
      rw [hstep]
      have hSpy : S.Sublist py := by
        rw [hS]
        exact List.filter_sublist py
      by_cases hlt : R.1 < B.1
      · rw [if_pos hlt]
        have hsrc := stripOuter_src S (B.1, (none, none))
        rw [← _closest_in_strip, ← hR] at hsrc
        rcases hsrc with heq | ⟨u, v, huv, heq⟩
        · exfalso
          rw [heq] at hlt
          exact lt_irrefl _ hlt
        · exact Or.inr ⟨u, v, Or.inr (huv.trans hSpy), heq⟩
      · rw [if_neg hlt]
        have hlen1 : (pxSplit px).1.length < n := by
          rw [← hlen]
          simp only [pxSplit, List.length_take]
          omega
        have hlen2 : (pxSplit px).2.length < n := by
          rw [← hlen]
          simp only [pxSplit, List.length_drop]
          omega
        rcases combine_cases
            (_closest_pair_rec (pxSplit px).1 (pyPartition py (midX px)).1)
            (_closest_pair_rec (pxSplit px).2 (pyPartition py (midX px)).2) with hc | hc
        · rcases ih _ hlen1 (pxSplit px).1 (pyPartition py (midX px)).1 rfl with heq |
              ⟨u, v, hor, heq⟩
          · rw [hB, hc, heq]
            exact Or.inl rfl
          · refine Or.inr ⟨u, v, ?_, by rw [hB, hc]; exact heq⟩
            rcases hor with hs | hs
            · exact Or.inl (hs.trans (by simp only [pxSplit]; exact List.take_sublist _ px))
            · exact Or.inr (hs.trans (by simp only [pyPartition]; exact List.filter_sublist py))
        · rcases ih _ hlen2 (pxSplit px).2 (pyPartition py (midX px)).2 rfl with heq |
              ⟨u, v, hor, heq⟩
          · rw [hB, hc, heq]
            exact Or.inl rfl
          · refine Or.inr ⟨u, v, ?_, by rw [hB, hc]; exact heq⟩
            rcases hor with hs | hs
            · exact Or.inl (hs.trans (by simp only [pxSplit]; exact List.drop_sublist _ px))
            · exact Or.inr (hs.trans (by simp only [pyPartition]; exact List.filter_sublist py))

theorem rec_fst_lt_top (px py : List Point) (h2 : 2 ≤ px.length) :
    (_closest_pair_rec px py).1 < (⊤ : DistE) := by
  suffices H : ∀ n (px py : List Point), px.length = n → 2 ≤ px.length →
      (_closest_pair_rec px py).1 < (⊤ : DistE) by
    exact H px.length px py rfl h2
  intro n
  induction n using Nat.strong_induction_on with
  | _ n ih =>
    intro px py hlen h2
    by_cases hb : px.length ≤ 3
    · rw [rec_base px py hb]
      rcases bf_fin px h2 with ⟨u, v, _, heq⟩
      rw [heq]
      exact WithTop.coe_lt_top _
    · obtain ⟨B, hB⟩ : ∃ B, B = combine
          (_closest_pair_rec (pxSplit px).1 (pyPartition py (midX px)).1)
          (_closest_pair_rec (pxSplit px).2 (pyPartition py (midX px)).2) := ⟨_, rfl⟩
      obtain ⟨R, hR⟩ : ∃ R, R = _closest_in_strip
          (py.filter fun p => decide (qltE |p.1 - midX px| B.1)) B.1 := ⟨_, rfl⟩
      rw [rec_res_fst px py hb B R hB hR]
      have hmono : R.1 ≤ B.1 := by
        rw [hR]
        exact stripOuter_mono _ _
      have hlen1 : (pxSplit px).1.length < n := by
        rw [← hlen]
        simp only [pxSplit, List.length_take]
        omega
      have hlen1b : 2 ≤ (pxSplit px).1.length := by
        simp only [pxSplit, List.length_take]
        omega
      have hleft := ih _ hlen1 (pxSplit px).1 (pyPartition py (midX px)).1 rfl hlen1b
      have hble : B.1 ≤ (_closest_pair_rec (pxSplit px).1 (pyPartition py (midX px)).1).1 := by
        rw [hB]
        exact combine_fst_le_left _ _
      exact lt_of_le_of_lt (le_trans hmono hble) hleft

theorem rec_fin (px py : List Point) (h2 : 2 ≤ px.length) :
    ∃ u v, ([u, v].Sublist px ∨ [u, v].Sublist py) ∧
      _closest_pair_rec px py = (((dist2 u v : ℚ) : DistE), (some u, some v)) := by
  rcases rec_src px py with heq | hfin
  · exfalso
    have := rec_fst_lt_top px py h2
    rw [heq] at this
    exact lt_irrefl _ this
  · exact hfin

theorem qltE_of_sq_le (c D : ℚ) (B : DistE) (hc : c * c ≤ D)
    (hD : ((D : ℚ) : DistE) < B) : qltE c B :=
  Or.inr (lt_of_le_of_lt (WithTop.coe_le_coe.mpr hc) hD)

theorem abs_sub_sq_le_dist2_left (a b : Point) (m : ℚ) (ha : a.1 ≤ m) (hb : m ≤ b.1) :
    |a.1 - m| * |a.1 - m| ≤ dist2 a b := by
  rw [abs_mul_abs_self]
  unfold dist2
  nlinarith [sq_nonneg (a.2 - b.2),
    mul_nonneg (sub_nonneg.mpr hb) (show (0:ℚ) ≤ m + b.1 - 2 * a.1 by linarith)]

theorem abs_sub_sq_le_dist2_right (a b : Point) (m : ℚ) (ha : a.1 ≤ m) (hb : m ≤ b.1) :
    |b.1 - m| * |b.1 - m| ≤ dist2 a b := by
  rw [abs_mul_abs_self]
  unfold dist2
  nlinarith [sq_nonneg (a.2 - b.2),
    mul_nonneg (sub_nonneg.mpr ha) (show (0:ℚ) ≤ 2 * b.1 - m - a.1 by linarith)]

/-- Main upper bound: the recursive search returns a distance no larger than the
distance of any pair occupying two distinct positions of `px` whose points are
also present (with multiplicity) in `py`. -/
theorem rec_ub : ∀ (px py : List Point),
    px.Pairwise (fun u v => u.1 ≤ v.1) →
    py.Pairwise (fun u v => u.2 ≤ v.2) →
    ∀ a b : Point, [a, b].Sublist px → List.Subperm [a, b] py →
    (_closest_pair_rec px py).1 ≤ ((dist2 a b : ℚ) : DistE) := by
  suffices H : ∀ n (px py : List Point), px.length = n →
      px.Pairwise (fun u v => u.1 ≤ v.1) →
      py.Pairwise (fun u v => u.2 ≤ v.2) →
      ∀ a b : Point, [a, b].Sublist px → List.Subperm [a, b] py →
      (_closest_pair_rec px py).1 ≤ ((dist2 a b : ℚ) : DistE) by
    exact fun px py hx hy a b h1 h2 => H px.length px py rfl hx hy a b h1 h2
  intro n
  induction n using Nat.strong_induction_on with
  | _ n ih =>
    intro px py hlen hx hy a b hab haby
    by_cases hbase : px.length ≤ 3
    · rw [rec_base px py hbase]
      exact bf_le_of_pair px a b hab
    · obtain ⟨B, hB⟩ : ∃ B, B = combine
          (_closest_pair_rec (pxSplit px).1 (pyPartition py (midX px)).1)
          (_closest_pair_rec (pxSplit px).2 (pyPartition py (midX px)).2) := ⟨_, rfl⟩
      obtain ⟨S, hS⟩ : ∃ S,
          S = py.filter fun p => decide (qltE |p.1 - midX px| B.1) := ⟨_, rfl⟩
      obtain ⟨R, hR⟩ : ∃ R, R = _closest_in_strip S B.1 := ⟨_, rfl⟩
      rw [rec_res_fst px py hbase B R hB (by rw [hR, hS])]
      obtain ⟨hF1, hF2⟩ := midX_mem_facts px hbase hx
      have hSpy : S.Sublist py := by
        rw [hS]
        exact List.filter_sublist py
      have hySt : S.Pairwise (fun u v => u.2 ≤ v.2) := hy.sublist hSpy
      have hRB : R.1 ≤ B.1 := by
        rw [hR]
        exact stripOuter_mono _ _
      have hfstle : a.1 ≤ b.1 := pair_sublist_fst_le px hx a b hab
      -- the strip argument, shared by the split case and the boundary case
      have hstrip_case : a.1 ≤ midX px → midX px ≤ b.1 →
          R.1 ≤ ((dist2 a b : ℚ) : DistE) := by
        intro ha1 hb1
        by_cases hD : ((dist2 a b : ℚ) : DistE) < B.1
        · have hga : decide (qltE |a.1 - midX px| B.1) = true :=
            decide_eq_true
              (qltE_of_sq_le _ _ _ (abs_sub_sq_le_dist2_left a b (midX px) ha1 hb1) hD)
          have hgb : decide (qltE |b.1 - midX px| B.1) = true :=
            decide_eq_true
              (qltE_of_sq_le _ _ _ (abs_sub_sq_le_dist2_right a b (midX px) ha1 hb1) hD)
          have hsubS : List.Subperm [a, b] S := by
            rw [hS]
            exact pair_subperm_filter py a b _ haby hga hgb
          rcases pair_subperm_elim S a b hsubS with hs | hs
          · rw [hR]
            exact stripOuter_le S _ a b hySt hs
          · rw [hR]
            have hba := stripOuter_le S ((B.1), (none, none)) b a hySt hs
            rw [dist2_comm b a] at hba
            exact hba
        · exact le_trans hRB (le_of_not_lt hD)
      have hlen1 : (pxSplit px).1.length < n := by
        rw [← hlen]
        simp only [pxSplit, List.length_take]
        omega
      have hlen2 : (pxSplit px).2.length < n := by
        rw [← hlen]
        simp only [pxSplit, List.length_drop]
        omega
      have hxL1 : (pxSplit px).1.Pairwise (fun u v => u.1 ≤ v.1) :=
        hx.sublist (by simp only [pxSplit]; exact List.take_sublist _ px)
      have hxL2 : (pxSplit px).2.Pairwise (fun u v => u.1 ≤ v.1) :=
        hx.sublist (by simp only [pxSplit]; exact List.drop_sublist _ px)
      have hyP1 : (pyPartition py (midX px)).1.Pairwise (fun u v => u.2 ≤ v.2) :=
        hy.sublist (by simp only [pyPartition]; exact List.filter_sublist py)
      have hyP2 : (pyPartition py (midX px)).2.Pairwise (fun u v => u.2 ≤ v.2) :=
        hy.sublist (by simp only [pyPartition]; exact List.filter_sublist py)
      have hsplit : px = (pxSplit px).1 ++ (pxSplit px).2 := by
        simp only [pxSplit]
        exact (List.take_append_drop _ px).symm
      have hab2 : [a, b].Sublist ((pxSplit px).1 ++ (pxSplit px).2) := hsplit ▸ hab
      rcases List.sublist_append_iff.mp hab2 with ⟨xs, ys, hxy, hxs, hys⟩
      rcases pair_eq_append_cases a b xs ys hxy with ⟨hx0, hy0⟩ | ⟨hx0, hy0⟩ | ⟨hx0, hy0⟩
      · -- both points lie in the right half
        subst hx0
        subst hy0
        have hamem : a ∈ (pxSplit px).2 := hys.subset (List.mem_cons_self _ _)
        have hbmem : b ∈ (pxSplit px).2 :=
          hys.subset (List.mem_cons_of_mem _ (List.mem_cons_self _ _))
        by_cases hstricta : midX px < a.1
        · -- strictly right of the split line: both go to the right partition
          have hstrictb : midX px < b.1 := lt_of_lt_of_le hstricta hfstle
          have hpa : (fun p : Point => !decide (p.1 ≤ midX px)) a = true := by
            show (!decide (a.1 ≤ midX px)) = true
            rw [decide_eq_false (not_le_of_lt hstricta)]
            rfl
          have hpb : (fun p : Point => !decide (p.1 ≤ midX px)) b = true := by
            show (!decide (b.1 ≤ midX px)) = true
            rw [decide_eq_false (not_le_of_lt hstrictb)]
            rfl
          have hsub2 : List.Subperm [a, b] (pyPartition py (midX px)).2 :=
            pair_subperm_filter py a b _ haby hpa hpb
          have hrec := ih _ hlen2 (pxSplit px).2 (pyPartition py (midX px)).2 rfl
            hxL2 hyP2 a b hys hsub2
          refine le_trans hRB (le_trans ?_ hrec)
          rw [hB]
          exact combine_fst_le_right _ _
        · -- a sits exactly on the split line: caught by this level's strip
          have ha1 : a.1 ≤ midX px := le_of_not_lt hstricta
          exact hstrip_case ha1 (hF2 b hbmem)
      · -- split pair: a in the left half, b in the right half
        subst hx0
        subst hy0
        have hamem : a ∈ (pxSplit px).1 := hxs.subset (List.mem_cons_self _ _)
        have hbmem : b ∈ (pxSplit px).2 := hys.subset (List.mem_cons_self _ _)
        exact hstrip_case (hF1 a hamem) (hF2 b hbmem)
      · -- both points lie in the left half
        subst hx0
        subst hy0
        have hamem : a ∈ (pxSplit px).1 := hxs.subset (List.mem_cons_self _ _)
        have hbmem : b ∈ (pxSplit px).1 :=
          hxs.subset (List.mem_cons_of_mem _ (List.mem_cons_self _ _))
        have hpa : (fun p : Point => decide (p.1 ≤ midX px)) a = true :=
          decide_eq_true (hF1 a hamem)
        have hpb : (fun p : Point => decide (p.1 ≤ midX px)) b = true :=
          decide_eq_true (hF1 b hbmem)
        have hsub1 : List.Subperm [a, b] (pyPartition py (midX px)).1 :=
          pair_subperm_filter py a b _ haby hpa hpb
        have hrec := ih _ hlen1 (pxSplit px).1 (pyPartition py (midX px)).1 rfl
          hxL1 hyP1 a b hxs hsub1
        refine le_trans hRB (le_trans ?_ hrec)
        rw [hB]
        exact combine_fst_le_left _ _

end RecHelpers

section SortFacts

theorem sortX_perm (points : List Point) : (sortX points).Perm points :=
  List.perm_insertionSort _ _

theorem sortY_perm (points : List Point) : (sortY points).Perm points :=
  List.perm_insertionSort _ _

theorem sortX_sorted (points : List Point) :
    (sortX points).Pairwise fun u v => u.1 ≤ v.1 :=
  List.sorted_insertionSort _ _

theorem sortY_sorted (points : List Point) :
    (sortY points).Pairwise fun u v => u.2 ≤ v.2 :=
  List.sorted_insertionSort _ _

theorem pair_subperm_swap (l : List Point) (a b : Point)
    (h : List.Subperm [a, b] l) : List.Subperm [b, a] l :=
  List.Subperm.trans (List.Perm.subperm (List.Perm.swap a b [])) h

theorem subperm_filter (l1 l2 : List Point) (p : Point → Bool)
    (h : List.Subperm l1 l2) (hall : ∀ x ∈ l1, p x = true) :
    List.Subperm l1 (l2.filter p) := by
  rcases h with ⟨l3, hperm, hsub⟩
  have hl3 : l3.filter p = l3 := by
    rw [List.filter_eq_self]
    intro x hx
    exact hall x (hperm.mem_iff.mp hx)
  exact ⟨l3, hperm, hl3 ▸ hsub.filter p⟩

end SortFacts

section Agreement

theorem dnc_unfold (points : List Point) (hn : ¬ points.length < 2) :
    closest_pair_dnc points = _closest_pair_rec (sortX points) (sortY points) := by
  rw [closest_pair_dnc, if_neg hn]

/-- The two algorithms return the same (encoded) distance on every input. -/
theorem dnc_eq_bf_dist (points : List Point) :
    (closest_pair_dnc points).1 = (brute_force_closest_pair points).1 := by
  by_cases hn : points.length < 2
  · rw [closest_pair_dnc, if_pos hn, brute_force_closest_pair, if_pos hn]
  · have h2 : 2 ≤ points.length := not_lt.mp hn
    rw [dnc_unfold points hn]
    apply le_antisymm
    · rcases bf_fin points h2 with ⟨u, v, hsub, heq⟩
      rw [heq]
      have hpx : List.Subperm [u, v] (sortX points) :=
        (hsub.subperm).trans ((sortX_perm points).symm.subperm)
      have hpy : List.Subperm [u, v] (sortY points) :=
        (hsub.subperm).trans ((sortY_perm points).symm.subperm)
      rcases pair_subperm_elim _ u v hpx with hs | hs
      · exact rec_ub (sortX points) (sortY points) (sortX_sorted points)
          (sortY_sorted points) u v hs hpy
      · have := rec_ub (sortX points) (sortY points) (sortX_sorted points)
          (sortY_sorted points) v u hs (pair_subperm_swap _ u v hpy)
        rw [dist2_comm v u] at this
        exact this
    · have hlenx : 2 ≤ (sortX points).length := by
        rw [(sortX_perm points).length_eq]
        exact h2
      rcases rec_fin (sortX points) (sortY points) hlenx with ⟨u, v, hor, heq⟩
      rw [heq]
      have hsubp : List.Subperm [u, v] points := by
        rcases hor with hs | hs
        · exact (hs.subperm).trans ((sortX_perm points).subperm)
        · exact (hs.subperm).trans ((sortY_perm points).subperm)
      rcases pair_subperm_elim points u v hsubp with hs | hs
      · exact bf_le_of_pair points u v hs
      · have := bf_le_of_pair points v u hs
        rw [dist2_comm v u] at this
        exact this

end Agreement

section Claims

/-- C1: For every finite list of points, `brute_force_closest_pair` and
`closest_pair_dnc` return identical (encoded) distances; and whenever exactly
one unordered pair attains the minimum distance, both return that pair (as an
unordered pair of points). -/
theorem claim_c1 :
    (∀ points : List Point,
      (closest_pair_dnc points).1 = (brute_force_closest_pair points).1) ∧
    (∀ (points : List Point) (u v : Point),
      (u, v) ∈ allPairs points →
      (∀ pq ∈ allPairs points, dist2 u v ≤ dist2 pq.1 pq.2) →
      (∀ pq ∈ allPairs points, dist2 pq.1 pq.2 = dist2 u v →
        (pq.1 = u ∧ pq.2 = v) ∨ (pq.1 = v ∧ pq.2 = u)) →
      ∃ a b a2 b2,
        brute_force_closest_pair points =
          (((dist2 u v : ℚ) : DistE), (some a, some b)) ∧
        closest_pair_dnc points =
          (((dist2 u v : ℚ) : DistE), (some a2, some b2)) ∧
        ((a = u ∧ b = v) ∨ (a = v ∧ b = u)) ∧
        ((a2 = u ∧ b2 = v) ∨ (a2 = v ∧ b2 = u))) := by
  constructor
  · exact dnc_eq_bf_dist
  · intro points u v hmem hmin huniq
    have hsubuv : [u, v].Sublist points := (mem_allPairs_iff points u v).mp hmem
    have h2 : 2 ≤ points.length := by
      have := hsubuv.length_le
      simpa using this
    rcases bf_fin points h2 with ⟨a, b, hab, hbf⟩
    have habm : (a, b) ∈ allPairs points := (mem_allPairs_iff points a b).mpr hab
    have h1 : ((dist2 a b : ℚ) : DistE) ≤ ((dist2 u v : ℚ) : DistE) := by
      have := bf_le_of_pair points u v hsubuv
      rw [hbf] at this
      exact this
    have heqd : dist2 a b = dist2 u v :=
      le_antisymm (WithTop.coe_le_coe.mp h1) (hmin (a, b) habm)
    have hcase1 := huniq (a, b) habm heqd
    have hn : ¬ points.length < 2 := not_lt.mpr h2
    have hlenx : 2 ≤ (sortX points).length := by
      rw [(sortX_perm points).length_eq]
      exact h2
    rcases rec_fin (sortX points) (sortY points) hlenx with ⟨a2, b2, hor, hrec⟩
    have hdncEq : closest_pair_dnc points =
        (((dist2 a2 b2 : ℚ) : DistE), (some a2, some b2)) := by
      rw [dnc_unfold points hn]
      exact hrec
    have hdist : (closest_pair_dnc points).1 = ((dist2 u v : ℚ) : DistE) := by
      rw [dnc_eq_bf_dist points, hbf]
      show ((dist2 a b : ℚ) : DistE) = _
      rw [heqd]
    have heqd2 : dist2 a2 b2 = dist2 u v := by
      rw [hdncEq] at hdist
      exact WithTop.coe_eq_coe.mp hdist
    have hsubp : List.Subperm [a2, b2] points := by
      rcases hor with hs | hs
      · exact (hs.subperm).trans ((sortX_perm points).subperm)
      · exact (hs.subperm).trans ((sortY_perm points).subperm)
    have hbf2 : brute_force_closest_pair points =
        (((dist2 u v : ℚ) : DistE), (some a, some b)) := by
      rw [hbf, heqd]
    have hdnc2 : closest_pair_dnc points =
        (((dist2 u v : ℚ) : DistE), (some a2, some b2)) := by
      rw [hdncEq, heqd2]
    rcases pair_subperm_elim points a2 b2 hsubp with hs | hs
    · have hm2 : (a2, b2) ∈ allPairs points := (mem_allPairs_iff points a2 b2).mpr hs
      exact ⟨a, b, a2, b2, hbf2, hdnc2, hcase1, huniq (a2, b2) hm2 heqd2⟩
    · have hm2 : (b2, a2) ∈ allPairs points := (mem_allPairs_iff points b2 a2).mpr hs
      have hcase2 := huniq (b2, a2) hm2 (by rw [dist2_comm b2 a2]; exact heqd2)
      refine ⟨a, b, a2, b2, hbf2, hdnc2, hcase1, ?_⟩
      rcases hcase2 with ⟨h1, h2⟩ | ⟨h1, h2⟩
      · exact Or.inr ⟨h2, h1⟩
      · exact Or.inl ⟨h2, h1⟩

/-- Witness for C1 at the concrete input `[(0,0), (3,4), (9,9)]`, whose unique
closest pair is `((0,0), (3,4))` at squared distance 25. -/
theorem claim_c1_witness :
    ((closest_pair_dnc [((0:ℚ),(0:ℚ)), (3,4), (9,9)]).1 =
      (brute_force_closest_pair [((0:ℚ),(0:ℚ)), (3,4), (9,9)]).1) ∧
    (∃ a b a2 b2,
      brute_force_closest_pair [((0:ℚ),(0:ℚ)), (3,4), (9,9)] =
        (((dist2 (0,0) (3,4) : ℚ) : DistE), (some a, some b)) ∧
      closest_pair_dnc [((0:ℚ),(0:ℚ)), (3,4), (9,9)] =
        (((dist2 (0,0) (3,4) : ℚ) : DistE), (some a2, some b2)) ∧
      ((a = ((0:ℚ),(0:ℚ)) ∧ b = ((3:ℚ),(4:ℚ))) ∨ (a = (3,4) ∧ b = (0,0))) ∧
      ((a2 = ((0:ℚ),(0:ℚ)) ∧ b2 = ((3:ℚ),(4:ℚ))) ∨ (a2 = (3,4) ∧ b2 = (0,0)))) :=
  ⟨claim_c1.1 _,
    claim_c1.2 [((0:ℚ),(0:ℚ)), (3,4), (9,9)] (0,0) (3,4)
      (by with_unfolding_all decide)
      (by with_unfolding_all decide)
      (by with_unfolding_all decide)⟩

/-- C2: On an input with at least 2 points, the brute-force scan returns the
minimum of the distance over all pairs `(i, j)`, `i < j`, in the input's scan
order, and the returned pair is the earliest pair in scan order attaining that
minimum. -/
theorem claim_c2 (l : List Point) (h : 2 ≤ l.length) :
    ∃ m a b,
      brute_force_closest_pair l = (((m : ℚ) : DistE), (some a, some b)) ∧
      (∀ pq ∈ allPairs l, m ≤ dist2 pq.1 pq.2) ∧
      (allPairs l).find? (fun pq => decide (dist2 pq.1 pq.2 = m)) = some (a, b) := by
  rcases bf_argmin l h with ⟨m, a, b, heq, hmin, hfind⟩
  refine ⟨m, a, b, heq, hmin, ?_⟩
  rw [← hfind]
  apply find?_congr_mem
  intro pq hpq
  have hle := hmin pq hpq
  by_cases hce : dist2 pq.1 pq.2 = m
  · rw [decide_eq_true hce, decide_eq_true (le_of_eq hce)]
  · rw [decide_eq_false hce, decide_eq_false fun hc => hce (le_antisymm hc hle)]

/-- Witness for C2 at `[(0,0), (3,4), (9,9)]`. -/
theorem claim_c2_witness :
    2 ≤ ([((0:ℚ),(0:ℚ)), (3,4), (9,9)] : List Point).length ∧
    ∃ m a b,
      brute_force_closest_pair [((0:ℚ),(0:ℚ)), (3,4), (9,9)] =
        (((m : ℚ) : DistE), (some a, some b)) ∧
      (∀ pq ∈ allPairs [((0:ℚ),(0:ℚ)), (3,4), (9,9)], m ≤ dist2 pq.1 pq.2) ∧
      (allPairs [((0:ℚ),(0:ℚ)), (3,4), (9,9)]).find?
        (fun pq => decide (dist2 pq.1 pq.2 = m)) = some (a, b) :=
  ⟨by decide, claim_c2 _ (by decide)⟩

/-- C4: For both public functions, the "no pair" marker `(none, none)` appears
iff the distance is the infinite sentinel, and this happens exactly when the
input has fewer than 2 points; inputs of length 0 or 1 give exactly
`(⊤, (none, none))`. -/
theorem claim_c4 (points : List Point) :
    ((brute_force_closest_pair points).2 = ((none : Option Point), (none : Option Point)) ↔
      (brute_force_closest_pair points).1 = (⊤ : DistE)) ∧
    ((closest_pair_dnc points).2 = ((none : Option Point), (none : Option Point)) ↔
      (closest_pair_dnc points).1 = (⊤ : DistE)) ∧
    ((brute_force_closest_pair points).1 = (⊤ : DistE) ↔ points.length < 2) ∧
    ((closest_pair_dnc points).1 = (⊤ : DistE) ↔ points.length < 2) ∧
    (points.length < 2 →
      brute_force_closest_pair points = ((⊤ : DistE), (none, none)) ∧
      closest_pair_dnc points = ((⊤ : DistE), (none, none))) := by
  by_cases hn : points.length < 2
  · have hbf : brute_force_closest_pair points = ((⊤ : DistE), (none, none)) := by
      rw [brute_force_closest_pair, if_pos hn]
    have hdnc : closest_pair_dnc points = ((⊤ : DistE), (none, none)) := by
      rw [closest_pair_dnc, if_pos hn]
    rw [hbf, hdnc]
    refine ⟨by simp, by simp, by simp [hn], by simp [hn], fun _ => ⟨rfl, rfl⟩⟩
  · have h2 : 2 ≤ points.length := not_lt.mp hn
    rcases bf_fin points h2 with ⟨u, v, _, hbf⟩
    have hlenx : 2 ≤ (sortX points).length := by
      rw [(sortX_perm points).length_eq]
      exact h2
    rcases rec_fin (sortX points) (sortY points) hlenx with ⟨u2, v2, _, hrec⟩
    have hdnc : closest_pair_dnc points =
        (((dist2 u2 v2 : ℚ) : DistE), (some u2, some v2)) := by
      rw [dnc_unfold points hn]
      exact hrec
    rw [hbf, hdnc]
    refine ⟨by simp, by simp, ?_, ?_, fun hc => absurd hc hn⟩
    · exact iff_of_false WithTop.coe_ne_top hn
    · exact iff_of_false WithTop.coe_ne_top hn

/-- Witness for C4 at the empty input and a 3-point input. -/
theorem claim_c4_witness :
    brute_force_closest_pair ([] : List Point) = ((⊤ : DistE), (none, none)) ∧
    closest_pair_dnc ([] : List Point) = ((⊤ : DistE), (none, none)) :=
  (claim_c4 []).2.2.2.2 (by decide)

/-- C5: In `_closest_in_strip`, the forward-scan cutoff is the current
(possibly updated) running minimum: the guard reads the threaded `min_dist`,
and after a strict improvement the scan continues with the updated value as the
new cutoff.  If no pair in the strip is strictly closer than `d_min`, the
function returns `(d_min, (none, none))` unchanged. -/
theorem claim_c5 :
    (∀ (p q : Point) (qs : List Point) (md : DistE) (b : OPair),
      (¬ qltE (q.2 - p.2) md → stripInner p (q :: qs) md b = Sum.inr (md, b)) ∧
      (qltE (q.2 - p.2) md → ¬ ((dist2 p q : ℚ) : DistE) < md →
        stripInner p (q :: qs) md b = stripInner p qs md b) ∧
      (qltE (q.2 - p.2) md → ((dist2 p q : ℚ) : DistE) < md → dist2 p q ≠ 0 →
        stripInner p (q :: qs) md b =
          stripInner p qs ((dist2 p q : ℚ) : DistE) (some p, some q))) ∧
    (∀ (strip : List Point) (d_min : DistE),
      (∀ u v, [u, v].Sublist strip → ¬ ((dist2 u v : ℚ) : DistE) < d_min) →
      _closest_in_strip strip d_min = (d_min, (none, none))) := by
  constructor
  · intro p q qs md b
    refine ⟨fun hg => ?_, fun hg hlt => ?_, fun hg hlt h0 => ?_⟩
    · rw [stripInner, if_neg hg]
    · rw [stripInner, if_pos hg, if_neg hlt]
    · rw [stripInner, if_pos hg, if_pos hlt, if_neg h0]
  · intro strip d_min h
    exact stripOuter_no_improve strip (d_min, (none, none)) h

/-- Witness for C5: an improving comparison installs the new cutoff, and a
strip with no improving pair returns `(d_min, (none, none))`. -/
theorem claim_c5_witness :
    stripInner ((0:ℚ),(0:ℚ)) [((0,1) : Point), (0,2)] (⊤ : DistE) (none, none) =
      stripInner ((0:ℚ),(0:ℚ)) [((0,2) : Point)]
        ((dist2 (0,0) (0,1) : ℚ) : DistE) (some (0,0), some (0,1)) ∧
    _closest_in_strip ([] : List Point) ((1:ℚ) : DistE) =
      (((1:ℚ) : DistE), (none, none)) :=
  ⟨(claim_c5.1 (0,0) (0,1) [(0,2)] ⊤ (none, none)).2.2
      (by with_unfolding_all decide)
      (by with_unfolding_all decide)
      (by with_unfolding_all decide),
    claim_c5.2 [] (((1:ℚ)) : DistE)
      (fun u v huv => absurd huv (by simp))⟩

/-- C6: In the combine step, `d_min` is the smaller of the two recursive
distances, chosen by strict comparison, so on an exact tie the right half's
result (distance and pair) is taken; and in the recursive case
`_closest_pair_rec` combines exactly the two recursive results this way. -/
theorem claim_c6 :
    (∀ r1 r2 : DistE × OPair,
      (combine r1 r2).1 = min r1.1 r2.1 ∧
      (r1.1 < r2.1 → combine r1 r2 = r1) ∧
      (r1.1 = r2.1 → combine r1 r2 = r2)) ∧
    (∀ (px py : List Point), ¬ px.length ≤ 3 →
      ∀ best res : DistE × OPair,
      best = combine
        (_closest_pair_rec (pxSplit px).1 (pyPartition py (midX px)).1)
        (_closest_pair_rec (pxSplit px).2 (pyPartition py (midX px)).2) →
      res = _closest_in_strip
        (py.filter fun p => decide (qltE |p.1 - midX px| best.1)) best.1 →
      _closest_pair_rec px py = if res.1 < best.1 then res else best) := by
  constructor
  · intro r1 r2
    refine ⟨?_, fun hlt => ?_, fun heq => ?_⟩
    · unfold combine
      split
      · exact (min_eq_left (le_of_lt (by assumption))).symm
      · exact (min_eq_right (le_of_not_lt (by assumption))).symm
    · unfold combine
      rw [if_pos hlt]
    · unfold combine
      rw [if_neg (heq ▸ lt_irrefl r1.1)]
  · intro px py h best res hbest hres
    exact rec_step_eq px py h best res hbest hres

/-- Witness for C6: on an exact tie the right result is taken, including its
pair. -/
theorem claim_c6_witness :
    combine (((2:ℚ) : DistE), (some ((0:ℚ),(0:ℚ)), some ((1:ℚ),(1:ℚ))))
        (((2:ℚ) : DistE), (some ((5:ℚ),(5:ℚ)), some ((6:ℚ),(6:ℚ)))) =
      (((2:ℚ) : DistE), (some ((5:ℚ),(5:ℚ)), some ((6:ℚ),(6:ℚ)))) :=
  (claim_c6.1 _ _).2.2 rfl

/-- C7: As soon as a pairwise distance of exactly 0 is compared (while the
running minimum is still positive), both scans return immediately with
distance 0 and that pair; on `[(1,1), (1,1), (5,5)]` both public functions
return distance 0 with pair `((1,1), (1,1))`. -/
theorem claim_c7 :
    (∀ (p q : Point) (qs : List Point) (md : DistE) (b : OPair),
      dist2 p q = 0 → ((0 : ℚ) : DistE) < md →
      bfInner p (q :: qs) md b = Sum.inl (((0:ℚ) : DistE), (some p, some q))) ∧
    (∀ (p q : Point) (qs : List Point) (md : DistE) (b : OPair),
      dist2 p q = 0 → ((0 : ℚ) : DistE) < md →
      stripInner p (q :: qs) md b = Sum.inl (((0:ℚ) : DistE), (some p, some q))) ∧
    brute_force_closest_pair [((1:ℚ),(1:ℚ)), (1,1), (5,5)] =
      (((0:ℚ) : DistE), (some (1,1), some (1,1))) ∧
    closest_pair_dnc [((1:ℚ),(1:ℚ)), (1,1), (5,5)] =
      (((0:ℚ) : DistE), (some (1,1), some (1,1))) := by
  have hy : ∀ p q : Point, dist2 p q = 0 → q.2 - p.2 = 0 := by
    intro p q h0
    have h1 : (p.2 - q.2) ^ 2 = 0 := by
      unfold dist2 at h0
      nlinarith [sq_nonneg (p.1 - q.1), sq_nonneg (p.2 - q.2)]
    have := pow_eq_zero_iff (n := 2) (by norm_num) |>.mp h1
    linarith [sub_eq_zero.mp this]
  refine ⟨?_, ?_, ?_, ?_⟩
  · intro p q qs md b h0 hmd
    have hlt : ((dist2 p q : ℚ) : DistE) < md := by
      rw [h0]
      exact hmd
    rw [bfInner, if_pos hlt, if_pos h0]
  · intro p q qs md b h0 hmd
    have hlt : ((dist2 p q : ℚ) : DistE) < md := by
      rw [h0]
      exact hmd
    have hguard : qltE (q.2 - p.2) md := by
      refine Or.inr ?_
      rw [hy p q h0]
      show ((0 * 0 : ℚ) : DistE) < md
      norm_num
      exact hmd
    rw [stripInner, if_pos hguard, if_pos hlt, if_pos h0]
  · with_unfolding_all decide
  · rw [closest_pair_dnc, if_neg (by decide), _closest_pair_rec.eq_def]
    with_unfolding_all decide

/-- Witness for C7: the early exit fires on a concrete duplicate point. -/
theorem claim_c7_witness :
    bfInner ((1:ℚ),(1:ℚ)) [((1,1) : Point), (5,5)] (⊤ : DistE) (none, none) =
      Sum.inl (((0:ℚ) : DistE), (some (1,1), some (1,1))) ∧
    stripInner ((1:ℚ),(1:ℚ)) [((1,1) : Point), (5,5)] (⊤ : DistE) (none, none) =
      Sum.inl (((0:ℚ) : DistE), (some (1,1), some (1,1))) :=
  ⟨claim_c7.1 (1,1) (1,1) [(5,5)] ⊤ (none, none)
      (by with_unfolding_all decide) (by decide),
    claim_c7.2.1 (1,1) (1,1) [(5,5)] ⊤ (none, none)
      (by with_unfolding_all decide) (by decide)⟩

/-- C8: The distance function computes the non-negative real value
`sqrt((x1-x2)^2 + (y1-y2)^2)`, and is a pure function: the same two points
always yield the same value. -/
theorem claim_c8 (p1 p2 : Point) :
    Real.sqrt ((dist2 p1 p2 : ℚ) : ℝ) =
      Real.sqrt (((p1.1 : ℝ) - (p2.1 : ℝ)) ^ 2 + ((p1.2 : ℝ) - (p2.2 : ℝ)) ^ 2) ∧
    0 ≤ Real.sqrt ((dist2 p1 p2 : ℚ) : ℝ) ∧
    (∀ q1 q2 : Point, p1 = q1 → p2 = q2 →
      Real.sqrt ((dist2 p1 p2 : ℚ) : ℝ) = Real.sqrt ((dist2 q1 q2 : ℚ) : ℝ)) := by
  refine ⟨?_, Real.sqrt_nonneg _, ?_⟩
  · congr 1
    unfold dist2
    push_cast
    ring
  · intro q1 q2 h1 h2
    rw [h1, h2]

/-- Witness for C8 at `(0,0)` and `(3,4)`. -/
theorem claim_c8_witness :
    Real.sqrt ((dist2 ((0:ℚ),(0:ℚ)) ((3:ℚ),(4:ℚ)) : ℚ) : ℝ) =
      Real.sqrt (((0:ℚ) - (3:ℚ) : ℝ) ^ 2 + ((0:ℚ) - (4:ℚ) : ℝ) ^ 2) ∧
    Real.sqrt ((dist2 ((0:ℚ),(0:ℚ)) ((3:ℚ),(4:ℚ)) : ℚ) : ℝ) =
      Real.sqrt ((dist2 ((0:ℚ),(0:ℚ)) ((3:ℚ),(4:ℚ)) : ℚ) : ℝ) :=
  ⟨(claim_c8 (0,0) (3,4)).1,
    (claim_c8 (0,0) (3,4)).2.2 (0,0) (3,4) rfl rfl⟩

/-- C9: The recursion of `_closest_pair_rec` is well-founded: when
`|px| > 3` it recurses on `px[:mid]` and `px[mid:]` with `mid = |px| // 2`,
both strictly shorter than `px` and together covering it; when `|px| ≤ 3` it
delegates to the brute-force scan. -/
theorem claim_c9 (px py : List Point) :
    (3 < px.length →
      (pxSplit px).1.length < px.length ∧
      (pxSplit px).2.length < px.length ∧
      (pxSplit px).1.length = px.length / 2 ∧
      (pxSplit px).1 ++ (pxSplit px).2 = px) ∧
    (px.length ≤ 3 → _closest_pair_rec px py = brute_force_closest_pair px) := by
  constructor
  · intro h4
    refine ⟨?_, ?_, ?_, ?_⟩
    · simp only [pxSplit, List.length_take]
      omega
    · simp only [pxSplit, List.length_drop]
      omega
    · simp only [pxSplit, List.length_take]
      omega
    · simp only [pxSplit]
      exact List.take_append_drop _ px
  · intro h3
    exact rec_base px py h3

/-- Witness for C9 at a 4-point input (recursive case) and a 1-point input
(base case). -/
theorem claim_c9_witness :
    ((pxSplit [((0:ℚ),(0:ℚ)), (1,1), (2,2), (3,3)]).1.length <
        ([((0:ℚ),(0:ℚ)), (1,1), (2,2), (3,3)] : List Point).length ∧
      (pxSplit [((0:ℚ),(0:ℚ)), (1,1), (2,2), (3,3)]).2.length <
        ([((0:ℚ),(0:ℚ)), (1,1), (2,2), (3,3)] : List Point).length ∧
      (pxSplit [((0:ℚ),(0:ℚ)), (1,1), (2,2), (3,3)]).1.length =
        ([((0:ℚ),(0:ℚ)), (1,1), (2,2), (3,3)] : List Point).length / 2 ∧
      (pxSplit [((0:ℚ),(0:ℚ)), (1,1), (2,2), (3,3)]).1 ++
          (pxSplit [((0:ℚ),(0:ℚ)), (1,1), (2,2), (3,3)]).2 =
        [((0:ℚ),(0:ℚ)), (1,1), (2,2), (3,3)]) ∧
    _closest_pair_rec [((0:ℚ),(0:ℚ))] [((0:ℚ),(0:ℚ))] =
      brute_force_closest_pair [((0:ℚ),(0:ℚ))] :=
  ⟨(claim_c9 [((0:ℚ),(0:ℚ)), (1,1), (2,2), (3,3)] []).1 (by decide),
    (claim_c9 [((0:ℚ),(0:ℚ))] [((0:ℚ),(0:ℚ))]).2 (by decide)⟩

/-- C10: Whenever either public function returns an actual pair, both returned
points are elements of the input list and the returned (encoded) distance is
the distance of that pair. -/
theorem claim_c10 (points : List Point) :
    (∀ a b : Point, (brute_force_closest_pair points).2 = (some a, some b) →
      a ∈ points ∧ b ∈ points ∧
      (brute_force_closest_pair points).1 = ((dist2 a b : ℚ) : DistE)) ∧
    (∀ a b : Point, (closest_pair_dnc points).2 = (some a, some b) →
      a ∈ points ∧ b ∈ points ∧
      (closest_pair_dnc points).1 = ((dist2 a b : ℚ) : DistE)) := by
  constructor
  · intro a b hpair
    rcases bf_src points with heq | ⟨u, v, hsub, heq⟩
    · rw [heq] at hpair
      simp at hpair
    · rw [heq] at hpair
      obtain ⟨h1, h2⟩ : some u = some a ∧ some v = some b := by
        constructor
        · exact congrArg Prod.fst hpair
        · exact congrArg Prod.snd hpair
      obtain rfl : u = a := Option.some.inj h1
      obtain rfl : v = b := Option.some.inj h2
      refine ⟨hsub.subset (List.mem_cons_self _ _),
        hsub.subset (List.mem_cons_of_mem _ (List.mem_cons_self _ _)), ?_⟩
      rw [heq]
  · intro a b hpair
    by_cases hn : points.length < 2
    · rw [closest_pair_dnc, if_pos hn] at hpair
      simp at hpair
    · rw [dnc_unfold points hn] at hpair ⊢
      rcases rec_src (sortX points) (sortY points) with heq | ⟨u, v, hor, heq⟩
      · rw [heq] at hpair
        simp at hpair
      · rw [heq] at hpair
        obtain ⟨h1, h2⟩ : some u = some a ∧ some v = some b := by
          constructor
          · exact congrArg Prod.fst hpair
          · exact congrArg Prod.snd hpair
        obtain rfl : u = a := Option.some.inj h1
        obtain rfl : v = b := Option.some.inj h2
        rcases hor with hs | hs
        · exact ⟨(sortX_perm points).mem_iff.mp
              (hs.subset (List.mem_cons_self _ _)),
            (sortX_perm points).mem_iff.mp
              (hs.subset (List.mem_cons_of_mem _ (List.mem_cons_self _ _))),
            by rw [heq]⟩
        · exact ⟨(sortY_perm points).mem_iff.mp
              (hs.subset (List.mem_cons_self _ _)),
            (sortY_perm points).mem_iff.mp
              (hs.subset (List.mem_cons_of_mem _ (List.mem_cons_self _ _))),
            by rw [heq]⟩

/-- Witness for C10 at `[(0,0), (3,4), (9,9)]`. -/
theorem claim_c10_witness :
    (((0:ℚ),(0:ℚ)) ∈ ([((0:ℚ),(0:ℚ)), (3,4), (9,9)] : List Point) ∧
      ((3:ℚ),(4:ℚ)) ∈ ([((0:ℚ),(0:ℚ)), (3,4), (9,9)] : List Point) ∧
      (brute_force_closest_pair [((0:ℚ),(0:ℚ)), (3,4), (9,9)]).1 =
        ((dist2 (0,0) (3,4) : ℚ) : DistE)) ∧
    (((0:ℚ),(0:ℚ)) ∈ ([((0:ℚ),(0:ℚ)), (3,4), (9,9)] : List Point) ∧
      ((3:ℚ),(4:ℚ)) ∈ ([((0:ℚ),(0:ℚ)), (3,4), (9,9)] : List Point) ∧
      (closest_pair_dnc [((0:ℚ),(0:ℚ)), (3,4), (9,9)]).1 =
        ((dist2 (0,0) (3,4) : ℚ) : DistE)) :=
  ⟨(claim_c10 [((0:ℚ),(0:ℚ)), (3,4), (9,9)]).1 (0,0) (3,4)
      (by with_unfolding_all decide),
    (claim_c10 [((0:ℚ),(0:ℚ)), (3,4), (9,9)]).2 (0,0) (3,4)
      (by rw [closest_pair_dnc, if_neg (by decide), _closest_pair_rec.eq_def]
          with_unfolding_all decide)⟩

/-- C3 counterexample: on the input `[(0,0), (1,1), (2,2), (3,3)]`,
`closest_pair_dnc` reaches the recursive case (length 4 > 3), and the split it
performs there gives `px_left` and `py_left` with different multisets:
`px_left = [(0,0), (1,1)]` but `py_left = [(0,0), (1,1), (2,2)]`, because
`px[mid] = (2,2)` has x-coordinate equal to `mid_x` and the partition sends
`x ≤ mid_x` to the left. -/
theorem claim_c3_counterexample :
    closest_pair_dnc [((0:ℚ),(0:ℚ)), (1,1), (2,2), (3,3)] =
      _closest_pair_rec (sortX [((0:ℚ),(0:ℚ)), (1,1), (2,2), (3,3)])
        (sortY [((0:ℚ),(0:ℚ)), (1,1), (2,2), (3,3)]) ∧
    ¬ (sortX [((0:ℚ),(0:ℚ)), (1,1), (2,2), (3,3)]).length ≤ 3 ∧
    (pxSplit (sortX [((0:ℚ),(0:ℚ)), (1,1), (2,2), (3,3)])).1.length = 2 ∧
    (pyPartition (sortY [((0:ℚ),(0:ℚ)), (1,1), (2,2), (3,3)])
      (midX (sortX [((0:ℚ),(0:ℚ)), (1,1), (2,2), (3,3)]))).1.length = 3 ∧
    ¬ ((pxSplit (sortX [((0:ℚ),(0:ℚ)), (1,1), (2,2), (3,3)])).1.Perm
        (pyPartition (sortY [((0:ℚ),(0:ℚ)), (1,1), (2,2), (3,3)])
          (midX (sortX [((0:ℚ),(0:ℚ)), (1,1), (2,2), (3,3)]))).1) := by
  refine ⟨by rw [closest_pair_dnc, if_neg (by decide)], by decide,
    by with_unfolding_all decide, by with_unfolding_all decide, ?_⟩
  intro hperm
  have := hperm.length_eq
  rw [show (pxSplit (sortX [((0:ℚ),(0:ℚ)), (1,1), (2,2), (3,3)])).1.length = 2 by
      with_unfolding_all decide,
    show (pyPartition (sortY [((0:ℚ),(0:ℚ)), (1,1), (2,2), (3,3)])
      (midX (sortX [((0:ℚ),(0:ℚ)), (1,1), (2,2), (3,3)]))).1.length = 3 by
      with_unfolding_all decide] at this
  exact absurd this (by decide)

/-- C3 amended: whenever `px` is x-sorted, `py` is a permutation of `px`, and
the recursive case is reached (`|px| > 3`), the code's split satisfies:
`px_left` is a sub-multiset of `py_left`, `py_right` is a sub-multiset of
`px_right`, and `py_left ++ py_right` is a permutation of `py` — but `py_left`
always holds strictly more points than `px_left` (it receives `px[mid]`), so
the multiset equality claimed in the spec never holds in the recursive case. -/
theorem claim_c3_amended (px py : List Point)
    (hx : px.Pairwise fun u v => u.1 ≤ v.1)
    (hperm : px.Perm py) (h4 : 3 < px.length) :
    List.Subperm (pxSplit px).1 (pyPartition py (midX px)).1 ∧
    List.Subperm (pyPartition py (midX px)).2 (pxSplit px).2 ∧
    ((pyPartition py (midX px)).1 ++ (pyPartition py (midX px)).2).Perm py ∧
    (pxSplit px).1.length < (pyPartition py (midX px)).1.length := by
  have hb : ¬ px.length ≤ 3 := by omega
  obtain ⟨hF1, hF2⟩ := midX_mem_facts px hb hx
  have hmid : px.length / 2 < px.length := by omega
  have hsplit : px = (pxSplit px).1 ++ (pxSplit px).2 := by
    simp only [pxSplit]
    exact (List.take_append_drop _ px).symm
  have hmidx : midX px = px[px.length / 2].1 := by
    unfold midX
    rw [List.getD_eq_getElem px (0, 0) hmid]
  have hmidmem : px[px.length / 2] ∈ (pxSplit px).2 := by
    simp only [pxSplit]
    rw [List.drop_eq_getElem_cons hmid]
    exact List.mem_cons_self _ _
  refine ⟨?_, ?_, ?_, ?_⟩
  · have h1 : List.Subperm (pxSplit px).1 py :=
      List.Subperm.trans
        (List.Sublist.subperm (by simp only [pxSplit]; exact List.take_sublist _ px))
        hperm.subperm
    exact subperm_filter _ py _ h1 fun x hxm => decide_eq_true (hF1 x hxm)
  · have hpf : (py.filter fun p => !decide (p.1 ≤ midX px)).Perm
        (px.filter fun p => !decide (p.1 ≤ midX px)) :=
      List.Perm.filter _ hperm.symm
    have hnil : ((pxSplit px).1.filter fun p => !decide (p.1 ≤ midX px)) = [] := by
      rw [List.filter_eq_nil_iff]
      intro x hxm
      rw [decide_eq_true (hF1 x hxm)]
      simp
    have hpx : (px.filter fun p => !decide (p.1 ≤ midX px)) =
        ((pxSplit px).2.filter fun p => !decide (p.1 ≤ midX px)) := by
      have h5 : (px.filter fun p => !decide (p.1 ≤ midX px)) =
          (((pxSplit px).1 ++ (pxSplit px).2).filter fun p => !decide (p.1 ≤ midX px)) :=
        congrArg _ hsplit
      rw [h5, List.filter_append, hnil, List.nil_append]
    refine ⟨(pxSplit px).2.filter fun p => !decide (p.1 ≤ midX px), ?_, ?_⟩
    · show ((pxSplit px).2.filter fun p => !decide (p.1 ≤ midX px)).Perm
        (py.filter fun p => !decide (p.1 ≤ midX px))
      rw [← hpx]
      exact List.Perm.filter _ hperm
    · exact List.filter_sublist _
  · show (py.filter (fun p => decide (p.1 ≤ midX px)) ++
      py.filter fun p => !decide (p.1 ≤ midX px)).Perm py
    exact List.filter_append_perm _ py
  · have hlen : (pyPartition py (midX px)).1.length =
        (px.filter fun p => decide (p.1 ≤ midX px)).length := by
      unfold pyPartition
      exact (List.Perm.filter _ hperm.symm).length_eq
    have hself : ((pxSplit px).1.filter fun p => decide (p.1 ≤ midX px)) =
        (pxSplit px).1 := by
      rw [List.filter_eq_self]
      intro x hxm
      exact decide_eq_true (hF1 x hxm)
    have hmemf : px[px.length / 2] ∈
        ((pxSplit px).2.filter fun p => decide (p.1 ≤ midX px)) := by
      rw [List.mem_filter]
      refine ⟨hmidmem, decide_eq_true ?_⟩
      rw [hmidx]
    have hpos : 0 < ((pxSplit px).2.filter fun p => decide (p.1 ≤ midX px)).length :=
      List.length_pos_of_mem hmemf
    have hcalc : (px.filter fun p => decide (p.1 ≤ midX px)).length =
        (pxSplit px).1.length +
          ((pxSplit px).2.filter fun p => decide (p.1 ≤ midX px)).length := by
      have h5 : (px.filter fun p => decide (p.1 ≤ midX px)) =
          (((pxSplit px).1 ++ (pxSplit px).2).filter fun p => decide (p.1 ≤ midX px)) :=
        congrArg _ hsplit
      rw [h5, List.filter_append, List.length_append, hself]
    rw [hlen, hcalc]
    omega

/-- Witness for the amended C3 at the counterexample input. -/
theorem claim_c3_amended_witness :
    List.Subperm (pxSplit (sortX [((0:ℚ),(0:ℚ)), (1,1), (2,2), (3,3)])).1
      (pyPartition (sortY [((0:ℚ),(0:ℚ)), (1,1), (2,2), (3,3)])
        (midX (sortX [((0:ℚ),(0:ℚ)), (1,1), (2,2), (3,3)]))).1 ∧
    List.Subperm (pyPartition (sortY [((0:ℚ),(0:ℚ)), (1,1), (2,2), (3,3)])
        (midX (sortX [((0:ℚ),(0:ℚ)), (1,1), (2,2), (3,3)]))).2
      (pxSplit (sortX [((0:ℚ),(0:ℚ)), (1,1), (2,2), (3,3)])).2 ∧
    ((pyPartition (sortY [((0:ℚ),(0:ℚ)), (1,1), (2,2), (3,3)])
        (midX (sortX [((0:ℚ),(0:ℚ)), (1,1), (2,2), (3,3)]))).1 ++
      (pyPartition (sortY [((0:ℚ),(0:ℚ)), (1,1), (2,2), (3,3)])
        (midX (sortX [((0:ℚ),(0:ℚ)), (1,1), (2,2), (3,3)]))).2).Perm
      (sortY [((0:ℚ),(0:ℚ)), (1,1), (2,2), (3,3)]) ∧
    (pxSplit (sortX [((0:ℚ),(0:ℚ)), (1,1), (2,2), (3,3)])).1.length <
      (pyPartition (sortY [((0:ℚ),(0:ℚ)), (1,1), (2,2), (3,3)])
        (midX (sortX [((0:ℚ),(0:ℚ)), (1,1), (2,2), (3,3)]))).1.length :=
  claim_c3_amended
    (sortX [((0:ℚ),(0:ℚ)), (1,1), (2,2), (3,3)])
    (sortY [((0:ℚ),(0:ℚ)), (1,1), (2,2), (3,3)])
    (sortX_sorted _)
    ((sortX_perm _).trans (sortY_perm _).symm)
    (by decide)

end Claims
